import Mathlib

/-!
Verification of the ably-go client library core against its specification.

The Go source is shallowly embedded: Go strings are byte/char lists, Go
`interface{}` payloads are a tagged union, fallible Go functions return
`Option`/`Except`, and panics are modelled as `none`/a panic flag.  External
collaborators (encoding/json, encoding/base64, unicode/utf8, sort.Search,
path.Dir/Join from the Go standard library, and the injected cipher and RNG)
are modelled from their documented behaviour; everything else is translated
from the repository's source.
-/

/-! ### Go strings

Go strings are immutable byte sequences.  For the encoding-chain bookkeeping
(`Message.Encoding`, hosts, environments) only the character content matters,
so we model a Go string as a list of characters; for message payloads, where
UTF-8 validity of the raw bytes is observable, we use lists of bytes
(`List Nat`, each < 256) instead. -/

abbrev GoStr := List Char

/-- Convenience conversion from a Lean string literal. -/
def gs (s : String) : GoStr := s.data

/-- Model of Go `strings.Split(s, "/")`: splits on every slash and always
returns at least one (possibly empty) field, like the Go function. -/
def splitOnSlash : GoStr → List GoStr
  | [] => [[]]
  | c :: rest =>
    if c = '/' then [] :: splitOnSlash rest
    else
      match splitOnSlash rest with
      | t :: ts => (c :: t) :: ts
      | [] => [[c]]

/-- Model of Go `strings.Join(ts, "/")`. -/
def joinSlash : List GoStr → GoStr
  | [] => []
  | [t] => t
  | t :: ts => t ++ '/' :: joinSlash ts

/-- `mergeEncoding` from proto_message.go: append a token to a `/`-separated
encoding chain. -/
def mergeEncoding (a : GoStr) (b : GoStr) : GoStr :=
  if a = [] then b else a ++ '/' :: b

/-- The `utf-8` encoding token (constant `encUTF8`). -/
def encUTF8 : GoStr := gs "utf-8"

/-- The `json` encoding token (constant `encJSON`). -/
def encJSON : GoStr := gs "json"

/-- The `base64` encoding token (constant `encBase64`). -/
def encBase64 : GoStr := gs "base64"

/-- The `cipher` encoding-token family marker (constant `encCipher`). -/
def encCipher : GoStr := gs "cipher"

/-! ### Bytes and base64

Go `[]byte` values are lists of naturals below 256.  `encoding/base64`'s
`StdEncoding` (standard alphabet, `=` padding, strict on malformed input) is
modelled from its documented behaviour. -/

/-- Well-formedness of a byte list: every entry is an actual byte. -/
def byteOk (bs : List Nat) : Bool := bs.all (fun b => b < 256)

/-- The standard base64 alphabet: sextet value to ASCII code. -/
def b64Digit (d : Nat) : Nat :=
  if d < 26 then 65 + d
  else if d < 52 then 71 + d
  else if d < 62 then d - 4
  else if d = 62 then 43
  else 47

/-- Inverse of the base64 alphabet; `none` on characters outside it. -/
def b64Val (c : Nat) : Option Nat :=
  if 65 ≤ c ∧ c ≤ 90 then some (c - 65)
  else if 97 ≤ c ∧ c ≤ 122 then some (c - 71)
  else if 48 ≤ c ∧ c ≤ 57 then some (c + 4)
  else if c = 43 then some 62
  else if c = 47 then some 63
  else none

/-- Model of `base64.StdEncoding.EncodeToString` (result as ASCII bytes). -/
def b64Encode : List Nat → List Nat
  | [] => []
  | [b0] => [b64Digit (b0 / 4), b64Digit (b0 % 4 * 16), 61, 61]
  | [b0, b1] => [b64Digit (b0 / 4), b64Digit (b0 % 4 * 16 + b1 / 16), b64Digit (b1 % 16 * 4), 61]
  | b0 :: b1 :: b2 :: rest =>
    b64Digit (b0 / 4) :: b64Digit (b0 % 4 * 16 + b1 / 16) ::
      b64Digit (b1 % 16 * 4 + b2 / 64) :: b64Digit (b2 % 64) :: b64Encode rest

/-- Model of `base64.StdEncoding.DecodeString`: `none` on any input Go's
standard decoder rejects (bad length, bad character, interior padding). -/
def b64Decode : List Nat → Option (List Nat)
  | [] => some []
  | c0 :: c1 :: c2 :: c3 :: rest =>
    match b64Val c0, b64Val c1 with
    | some v0, some v1 =>
      if c2 = 61 then
        if c3 = 61 ∧ rest = [] then some [v0 * 4 + v1 / 16] else none
      else
        match b64Val c2 with
        | some v2 =>
          if c3 = 61 then
            if rest = [] then some [v0 * 4 + v1 / 16, v1 % 16 * 16 + v2 / 4] else none
          else
            match b64Val c3 with
            | some v3 =>
              (b64Decode rest).map
                (fun bs => (v0 * 4 + v1 / 16) :: (v1 % 16 * 16 + v2 / 4) :: (v2 % 4 * 64 + v3) :: bs)
            | none => none
        | none => none
    | _, _ => none
  | _ => none

/-! ### UTF-8 validity

Model of Go `utf8.ValidString` on raw bytes, following the accept ranges of
the Go decoder: rejects overlong encodings, surrogates and values above
U+10FFFF. -/

/-- Is `b` a UTF-8 continuation byte (`10xxxxxx`)? -/
def utf8Cont (b : Nat) : Bool := 128 ≤ b ∧ b ≤ 191

/-- Consume the continuation bytes of one multi-byte UTF-8 sequence led by
`b`, enforcing Go's accept ranges (no overlong encodings, no surrogates,
nothing above U+10FFFF); `none` when the sequence is invalid. -/
def utf8Rest (b : Nat) (bs : List Nat) : Option (List Nat) :=
  if 194 ≤ b ∧ b ≤ 223 then
    match bs with
    | b1 :: r => if utf8Cont b1 then some r else none
    | [] => none
  else if 224 ≤ b ∧ b ≤ 239 then
    match bs with
    | b1 :: b2 :: r =>
      let lo : Nat := if b = 224 then 160 else 128
      let hi : Nat := if b = 237 then 159 else 191
      if (lo ≤ b1 ∧ b1 ≤ hi : Bool) && utf8Cont b2 then some r else none
    | _ => none
  else if 240 ≤ b ∧ b ≤ 244 then
    match bs with
    | b1 :: b2 :: b3 :: r =>
      let lo : Nat := if b = 240 then 144 else 128
      let hi : Nat := if b = 244 then 143 else 191
      if (lo ≤ b1 ∧ b1 ≤ hi : Bool) && utf8Cont b2 && utf8Cont b3 then some r else none
    | _ => none
  else none

/-- Fuel-indexed loop of the `utf8.ValidString` model (the fuel only needs to
dominate the number of sequences, e.g. the byte length). -/
def validUtf8Go : Nat → List Nat → Bool
  | _, [] => true
  | 0, _ :: _ => false
  | fuel + 1, b :: bs =>
    if b < 128 then validUtf8Go fuel bs
    else
      match utf8Rest b bs with
      | some bs' => validUtf8Go fuel bs'
      | none => false

/-- Model of Go `utf8.ValidString` (on the string's bytes). -/
def validUtf8 (bs : List Nat) : Bool := validUtf8Go bs.length bs

/-! ### JSON values

`encoding/json` is an external collaborator: we model the JSON values that
`json.Marshal` / `json.Unmarshal` exchange with `interface{}` data as a tagged
tree (strings carry raw bytes, numbers are integers), a concrete serializer
whose output is plain ASCII, and a concrete parser.  Arrays and objects are
mutual inductives so that all recursion stays structural. -/

mutual
inductive Jv where
  | jnull
  | jbool (b : Bool)
  | jnum (n : Int)
  | jstr (s : List Nat)
  | jarr (elems : JvList)
  | jobj (fields : JvFields)
  deriving DecidableEq
inductive JvList where
  | nil
  | cons (hd : Jv) (tl : JvList)
  deriving DecidableEq
inductive JvFields where
  | nil
  | cons (key : List Nat) (val : Jv) (tl : JvFields)
  deriving DecidableEq
end

/-! Well-formed JSON values: every string and key is made of actual bytes. -/
mutual
def jvWf : Jv → Bool
  | .jnull => true
  | .jbool _ => true
  | .jnum _ => true
  | .jstr s => byteOk s
  | .jarr xs => jvlWf xs
  | .jobj fs => jvfWf fs
def jvlWf : JvList → Bool
  | .nil => true
  | .cons x xs => jvWf x && jvlWf xs
def jvfWf : JvFields → Bool
  | .nil => true
  | .cons k v fs => byteOk k && jvWf v && jvfWf fs
end

/-- Lower-case hexadecimal digit for a value below 16. -/
def hexDigit (d : Nat) : Nat := if d < 10 then 48 + d else 87 + d

/-- Inverse hexadecimal digit. -/
def hexVal (c : Nat) : Option Nat :=
  if 48 ≤ c ∧ c ≤ 57 then some (c - 48)
  else if 97 ≤ c ∧ c ≤ 102 then some (c - 87)
  else if 65 ≤ c ∧ c ≤ 70 then some (c - 55)
  else none

/-- JSON string escaping for one byte: printable ASCII other than quote and
backslash is emitted verbatim, everything else as a `\xxxx` unicode escape. -/
def escapeByte (b : Nat) : List Nat :=
  if b = 34 then [92, 34]
  else if b = 92 then [92, 92]
  else if 32 ≤ b ∧ b ≤ 126 then [b]
  else [92, 117, 48, 48, hexDigit (b / 16), hexDigit (b % 16)]

/-- JSON string escaping for a byte string. -/
def escapeBytes (s : List Nat) : List Nat := (s.map escapeByte).flatten

/-! Scan a JSON string body up to (and past) its closing quote, undoing the
escapes (`scanEsc` handles the character after a backslash); returns the
decoded bytes and the rest of the input. -/
mutual
def scanStr : List Nat → Option (List Nat × List Nat)
  | [] => none
  | c :: cs =>
    if c = 34 then some ([], cs)
    else if c = 92 then scanEsc cs
    else (scanStr cs).map (fun p => (c :: p.1, p.2))
def scanEsc : List Nat → Option (List Nat × List Nat)
  | 34 :: cs => (scanStr cs).map (fun p => (34 :: p.1, p.2))
  | 92 :: cs => (scanStr cs).map (fun p => (92 :: p.1, p.2))
  | 117 :: h1 :: h2 :: h3 :: h4 :: cs =>
    match hexVal h1, hexVal h2, hexVal h3, hexVal h4 with
    | some a, some b, some c, some d =>
      (scanStr cs).map (fun p => ((((a * 16 + b) * 16 + c) * 16 + d) :: p.1, p.2))
    | _, _, _, _ => none
  | _ => none
end

/-- Decimal digits, least significant first, with enough fuel in the first
argument (`natToDecAux n n` computes the digits of `n`). -/
def natToDecAux : Nat → Nat → List Nat
  | _, 0 => []
  | 0, _ + 1 => []
  | fuel + 1, n + 1 => (48 + (n + 1) % 10) :: natToDecAux fuel ((n + 1) / 10)

/-- Decimal digits of a natural, least significant first (empty for 0). -/
def natToDecRev (n : Nat) : List Nat := natToDecAux n n

/-- Decimal notation of a natural number. -/
def natToDec (n : Nat) : List Nat :=
  if n = 0 then [48] else (natToDecRev n).reverse

/-- Decimal notation of an integer (how `json.Marshal` prints our numbers). -/
def intToDec (n : Int) : List Nat :=
  if n < 0 then 45 :: natToDec (-n).toNat else natToDec n.toNat

/-- Is `c` the code of a decimal digit? -/
def isDigitByte (c : Nat) : Bool := 48 ≤ c ∧ c ≤ 57

/-- Numeric value of a list of decimal digit codes. -/
def digitsToNat (ds : List Nat) : Nat := ds.foldl (fun acc c => acc * 10 + (c - 48)) 0

/-- Parse a nonempty run of decimal digits. -/
def parseDigits (input : List Nat) : Option (Nat × List Nat) :=
  let ds := input.takeWhile isDigitByte
  if ds = [] then none else some (digitsToNat ds, input.dropWhile isDigitByte)

/-! The serializer side of the `encoding/json` model. -/
mutual
def jsonMarshal : Jv → List Nat
  | .jnull => [110, 117, 108, 108]
  | .jbool true => [116, 114, 117, 101]
  | .jbool false => [102, 97, 108, 115, 101]
  | .jnum n => intToDec n
  | .jstr s => 34 :: escapeBytes s ++ [34]
  | .jarr .nil => [91, 93]
  | .jarr (.cons x xs) => 91 :: marshalElems (.cons x xs) ++ [93]
  | .jobj .nil => [123, 125]
  | .jobj (.cons k v fs) => 123 :: marshalFields (.cons k v fs) ++ [125]
def marshalElems : JvList → List Nat
  | .nil => []
  | .cons x .nil => jsonMarshal x
  | .cons x (.cons y ys) => jsonMarshal x ++ 44 :: marshalElems (.cons y ys)
def marshalFields : JvFields → List Nat
  | .nil => []
  | .cons k v .nil => 34 :: escapeBytes k ++ [34, 58] ++ jsonMarshal v
  | .cons k v (.cons k' v' fs) =>
    34 :: escapeBytes k ++ [34, 58] ++ jsonMarshal v ++ 44 :: marshalFields (.cons k' v' fs)
end

/-! Fuel needed by the parser on the serializer's output. -/
mutual
def msize : Jv → Nat
  | .jnull => 1
  | .jbool _ => 1
  | .jnum _ => 1
  | .jstr _ => 1
  | .jarr .nil => 1
  | .jarr (.cons x xs) => 1 + lsize (.cons x xs)
  | .jobj .nil => 1
  | .jobj (.cons k v fs) => 1 + fsize (.cons k v fs)
def lsize : JvList → Nat
  | .nil => 1
  | .cons x .nil => 1 + msize x
  | .cons x (.cons y ys) => 1 + max (msize x) (lsize (.cons y ys))
def fsize : JvFields → Nat
  | .nil => 1
  | .cons _ v .nil => 1 + msize v
  | .cons _ v (.cons k' v' fs) => 1 + max (msize v) (fsize (.cons k' v' fs))
end

/-- Expect the given literal bytes at the head of the input. -/
def expectTail : List Nat → List Nat → Option (List Nat)
  | [], input => some input
  | l :: ls, c :: cs => if c = l then expectTail ls cs else none
  | _ :: _, [] => none

/-! The parser side of the `encoding/json` model (fuel-indexed recursive
descent over the grammar the serializer emits, whitespace-free). -/
mutual
def parseVal : Nat → List Nat → Option (Jv × List Nat)
  | 0, _ => none
  | _ + 1, [] => none
  | fuel + 1, c :: cs =>
    if c = 110 then (expectTail [117, 108, 108] cs).map (fun r => (.jnull, r))
    else if c = 116 then (expectTail [114, 117, 101] cs).map (fun r => (.jbool true, r))
    else if c = 102 then (expectTail [97, 108, 115, 101] cs).map (fun r => (.jbool false, r))
    else if c = 34 then (scanStr cs).map (fun p => (.jstr p.1, p.2))
    else if c = 91 then
      if cs.head? = some 93 then some (.jarr .nil, cs.tail)
      else (parseElems fuel cs).map (fun p => (.jarr p.1, p.2))
    else if c = 123 then
      if cs.head? = some 125 then some (.jobj .nil, cs.tail)
      else (parseFields fuel cs).map (fun p => (.jobj p.1, p.2))
    else if c = 45 then (parseDigits cs).map (fun p => (.jnum (-(p.1 : Int)), p.2))
    else (parseDigits (c :: cs)).map (fun p => (.jnum (p.1 : Int), p.2))
def parseElems : Nat → List Nat → Option (JvList × List Nat)
  | 0, _ => none
  | fuel + 1, input =>
    match parseVal fuel input with
    | some (v, 44 :: r) => (parseElems fuel r).map (fun p => (.cons v p.1, p.2))
    | some (v, 93 :: r) => some (.cons v .nil, r)
    | _ => none
def parseFields : Nat → List Nat → Option (JvFields × List Nat)
  | 0, _ => none
  | fuel + 1, input =>
    match input with
    | 34 :: cs =>
      match scanStr cs with
      | some (k, 58 :: r) =>
        match parseVal fuel r with
        | some (v, 44 :: r') => (parseFields fuel r').map (fun p => (.cons k v p.1, p.2))
        | some (v, 125 :: r') => some (.cons k v .nil, r')
        | _ => none
      | _ => none
    | _ => none
end

/-- Model of `json.Unmarshal` into `interface{}`: parse one value and require
the input to be exhausted. -/
def jsonUnmarshal (bs : List Nat) : Option Jv :=
  match parseVal (bs.length + 1) bs with
  | some (v, []) => some v
  | _ => none

/-- Boolean form of "every element is ASCII". -/
def asciiAll (l : List Nat) : Bool := l.all (fun c => c < 128)

/-- Head of input is not a digit (so a digit run before it parses cleanly). -/
def headNotDigit : List Nat → Bool
  | [] => true
  | c :: _ => !isDigitByte c

/-! ### Message payloads and the encoding/decoding pipeline
(proto_message.go) -/

/-- A Go `interface{}` payload as handled by the codec: a string (raw bytes),
a `[]byte`, or any other JSON-marshalable value.  A JSON string decoded by
`json.Unmarshal` becomes a Go `string`, so `vjson (.jstr _)` is never
produced by the embedding (see `goOfJv`). -/
inductive GoValue where
  | vstr (bs : List Nat)
  | vbytes (bs : List Nat)
  | vjson (v : Jv)
  deriving DecidableEq

/-- The Go value `json.Unmarshal` stores into an `interface{}` for a parsed
JSON value: `null` becomes `nil`, a JSON string becomes a Go string, and
everything else stays a dynamically-typed JSON value. -/
def goOfJv : Jv → Option GoValue
  | .jnull => none
  | .jstr s => some (.vstr s)
  | v => some (.vjson v)

/-- `Message` from proto_message.go (the `Extras` map, which the codec never
touches, is omitted). -/
structure Message where
  id : GoStr := []
  clientID : GoStr := []
  connectionID : GoStr := []
  name : GoStr := []
  data : Option GoValue := none
  encoding : GoStr := []
  timestamp : Int := 0
  deriving DecidableEq

/-- The `channelCipher` interface: `Encrypt`/`Decrypt` (with `none` for a Go
error) and `GetAlgorithm`. -/
structure ChannelCipher where
  encrypt : List Nat → Option (List Nat)
  decrypt : List Nat → Option (List Nat)
  algorithm : GoStr

/-- A cipher the spec calls valid: encryption is total, produces bytes,
decryption inverts encryption, and the algorithm name is a single
`cipher`-prefixed chain token. -/
def ValidCipher (c : ChannelCipher) : Prop :=
  (∀ bs, (c.encrypt bs).isSome) ∧
  (∀ bs e, byteOk bs = true → c.encrypt bs = some e → byteOk e = true) ∧
  (∀ bs e, c.encrypt bs = some e → c.decrypt e = some bs) ∧
  encCipher.isPrefixOf c.algorithm ∧ '/' ∉ c.algorithm

/-- Either no cipher, or a valid one. -/
def CipherOk : Option ChannelCipher → Prop
  | none => True
  | some c => ValidCipher c

/-- The four accepted payload shapes of the round-trip law, with well-formed
bytes: a valid-UTF-8 text string, a byte string, a JSON object or a JSON
array. -/
def dataOk : Option GoValue → Bool
  | some (.vstr bs) => byteOk bs && validUtf8 bs
  | some (.vbytes bs) => byteOk bs
  | some (.vjson (.jarr xs)) => jvlWf xs
  | some (.vjson (.jobj fs)) => jvfWf fs
  | _ => false

/-- `coerceString` from proto_message.go (on a possibly-nil `interface{}`):
Go `string([]byte)` keeps the bytes, so both carriers coerce to their bytes. -/
def coerceString : Option GoValue → Option (List Nat)
  | some (.vbytes v) => some v
  | some (.vstr v) => some v
  | _ => none

/-- `coerceBytes` from proto_message.go. -/
def coerceBytes : Option GoValue → Option (List Nat)
  | some (.vbytes v) => some v
  | some (.vstr v) => some v
  | _ => none

/-- The errors `withEncodedData` can produce. -/
inductive EncodeErr where
  | notJsonObjectOrArray
  | encryptFailed
  | coercePanic
  deriving DecidableEq

/-- The errors `withDecodedData` can produce. -/
inductive DecodeErr where
  | coerceStringFailed
  | base64Failed
  | coerceBytesFailed
  | jsonFailed
  | cipherMissing (encoding : GoStr)
  | decryptFailed
  | unknownEncoding (encoding : GoStr)
  deriving DecidableEq

instance {ε α : Type} [DecidableEq ε] [DecidableEq α] : DecidableEq (Except ε α) := fun a b =>
  match a, b with
  | .ok x, .ok y => decidable_of_iff (x = y) (by simp)
  | .error x, .error y => decidable_of_iff (x = y) (by simp)
  | .ok _, .error _ => isFalse (by simp)
  | .error _, .ok _ => isFalse (by simp)

/-- `Message.withEncodedData` from proto_message.go: a non-UTF-8 string is
reclassified as bytes; strings pass through, bytes are base64-encoded, other
values must JSON-marshal to an object or array; then an optional cipher
encrypts the (string or byte) payload, recording `utf-8` when the plain text
was a valid UTF-8 string, and the ciphertext is base64-encoded. -/
def withEncodedData (m : Message) (cipher : Option ChannelCipher) : Except EncodeErr Message :=
  match m.data with
  | none => .ok m
  | some d0 =>
    let d1 : GoValue :=
      match d0 with
      | .vstr bs => if validUtf8 bs then .vstr bs else .vbytes bs
      | d => d
    let step2 : Except EncodeErr (GoValue × GoStr) :=
      match d1 with
      | .vstr bs => .ok (.vstr bs, m.encoding)
      | .vbytes bs => .ok (.vstr (b64Encode bs), mergeEncoding m.encoding encBase64)
      | .vjson v =>
        let b := jsonMarshal v
        if b.head? = some 91 ∨ b.head? = some 123 then
          .ok (.vstr b, mergeEncoding m.encoding encJSON)
        else .error .notJsonObjectOrArray
    match step2 with
    | .error e => .error e
    | .ok (d2, enc2) =>
      match cipher with
      | none => .ok { m with data := some d2, encoding := enc2 }
      | some c =>
        match coerceBytes (some d2) with
        | none => .error .coercePanic
        | some bs =>
          match c.encrypt bs with
          | none => .error .encryptFailed
          | some e =>
            let enc3 : GoStr :=
              match d2 with
              | .vstr s => if validUtf8 s then mergeEncoding enc2 encUTF8 else enc2
              | _ => enc2
            .ok { m with data := some (.vstr (b64Encode e)),
                         encoding := mergeEncoding (mergeEncoding enc3 c.algorithm) encBase64 }

/-- One arm of the `switch encoding` in `Message.withDecodedData`. -/
def decodeStep (cipher : Option ChannelCipher) (encoding : GoStr) (data : Option GoValue) :
    Except DecodeErr (Option GoValue) :=
  if encoding = encBase64 then
    match coerceString data with
    | none => .error .coerceStringFailed
    | some d =>
      match b64Decode d with
      | none => .error .base64Failed
      | some bs => .ok (some (.vbytes bs))
  else if encoding = encUTF8 then
    match coerceString data with
    | none => .error .coerceStringFailed
    | some d => .ok (some (.vstr d))
  else if encoding = encJSON then
    match coerceBytes data with
    | none => .error .coerceBytesFailed
    | some d =>
      match jsonUnmarshal d with
      | none => .error .jsonFailed
      | some v => .ok (goOfJv v)
  else if encCipher.isPrefixOf encoding then
    match cipher with
    | none => .error (.cipherMissing encoding)
    | some c =>
      match coerceBytes data with
      | none => .error .coerceBytesFailed
      | some d =>
        match c.decrypt d with
        | none => .error .decryptFailed
        | some d2 => .ok (some (.vbytes d2))
  else .error (.unknownEncoding encoding)

/-- The loop of `Message.withDecodedData`, processing tokens right to left
(the argument is the reversed token list).  On success the message's
`Encoding` is cut down to the unprocessed tokens; on failure the message
(with the failing token still in its encoding, as in the Go code, which only
rewrites `m.Encoding` after a successful arm) is returned with the error. -/
def decodeLoopRev (cipher : Option ChannelCipher) :
    List GoStr → Message → Message × Option DecodeErr
  | [], m => (m, none)
  | encoding :: revRest, m =>
    match decodeStep cipher encoding m.data with
    | .error e => (m, some e)
    | .ok d' =>
      decodeLoopRev cipher revRest
        { m with data := d', encoding := joinSlash revRest.reverse }

/-- `Message.withDecodedData` from proto_message.go. -/
def withDecodedData (m : Message) (cipher : Option ChannelCipher) :
    Message × Option DecodeErr :=
  if m.data = none ∨ m.encoding = [] then (m, none)
  else decodeLoopRev cipher (splitOnSlash m.encoding).reverse m

/-- Pure fold of `decodeStep` over a token list, used to state what the
decode loop does to the payload alone. -/
def runTokens (cipher : Option ChannelCipher) :
    List GoStr → Option GoValue → Except DecodeErr (Option GoValue)
  | [], d => .ok d
  | t :: ts, d =>
    match decodeStep cipher t d with
    | .error e => .error e
    | .ok d' => runTokens cipher ts d'

/-! ### The pending-ack queue (state.go: `pendingEmitter`)

Entries carry the protocol message and an abstract identity for the
completion channel; "completing an entry with e" is modelled as emitting the
pair (entry, e).  Go panics (out-of-range slice bounds) surface as a `none`
queue, with the emissions that happened before the panic preserved. -/

/-- The fields of `proto.ProtocolMessage` the queue logic reads. -/
structure ProtoMsg where
  msgSerial : Int
  count : Int
  deriving DecidableEq

/-- `msgCh` from state.go: a queued message and its completion channel
(identified abstractly by a number). -/
structure MsgCh where
  msg : ProtoMsg
  ch : Nat
  deriving DecidableEq

/-- The error value sent on a completion channel: `nil`, the distinguished
`errSerialSkipped`, or the `*ErrorInfo` carried by the ACK/NACK (identified
abstractly by a number). -/
inductive GoErr where
  | skipped
  | info (e : Nat)
  deriving DecidableEq

/-- `errInfo.unwrapNil()` composed with the error sent on the channel. -/
def unwrapNil : Option Nat → Option GoErr
  | none => none
  | some e => some (.info e)

/-- `pendingEmitter.Search` via `sort.Search`: the Go code binary-searches for
the least index whose entry's serial is at least `msg.MsgSerial`; on the
sorted queues the emitter maintains this is the first such index, which is
what `List.findIdx` computes. -/
def pendingSearch (q : List MsgCh) (msg : ProtoMsg) : Nat :=
  q.findIdx (fun e => msg.msgSerial ≤ e.msg.msgSerial)

/-- Insertion at an index (the `append`/`copy` shift in `Enqueue`). -/
def insertAt : Nat → MsgCh → List MsgCh → List MsgCh
  | 0, x, l => x :: l
  | _ + 1, x, [] => [x]
  | n + 1, x, a :: l => a :: insertAt n x l

/-- `pendingEmitter.Enqueue` from state.go: append when all serials are
smaller, drop (with a warning log) on a duplicate serial, otherwise insert
at the search position. -/
def pendingEnqueue (q : List MsgCh) (msg : ProtoMsg) (ch : Nat) : List MsgCh :=
  let i := pendingSearch q msg
  if i = q.length then q ++ [⟨msg, ch⟩]
  else if (q.getD i ⟨⟨0, 0⟩, 0⟩).msg.msgSerial = msg.msgSerial then q
  else insertAt i ⟨msg, ch⟩ q

/-- `pendingEmitter.Ack` from state.go.  Returns the new queue (`none` when
the Go code would panic on a reversed slice range, which happens when the
serial is beyond every queued entry — `ack` stays 0 — or when `count` is
negative) and the list of completions actually delivered before any panic:
entries before `nack` get `err`, entries in `[nack, ack)` get `nil`. -/
def pendingAck (q : List MsgCh) (msg : ProtoMsg) (errInfo : Option Nat) :
    Option (List MsgCh) × List (MsgCh × Option GoErr) :=
  if q.length = 0 then (some q, [])
  else
    let i := pendingSearch q msg
    let nack : Nat :=
      if i = q.length then q.length
      else if (q.getD i ⟨⟨0, 0⟩, 0⟩).msg.msgSerial = msg.msgSerial then i
      else i + 1
    let ack : Int :=
      if i = q.length then 0
      else if (q.getD i ⟨⟨0, 0⟩, 0⟩).msg.msgSerial = msg.msgSerial then
        min ((i : Int) + msg.count) q.length
      else min ((i : Int) + 1 + msg.count) q.length
    let err : Option GoErr :=
      match unwrapNil errInfo with
      | none => if 0 < nack then some .skipped else none
      | some e => some e
    let nackEmits := (q.take nack).map (fun e => (e, err))
    if ack < (nack : Int) then (none, nackEmits)
    else
      let ackEmits := ((q.take ack.toNat).drop nack).map (fun e => (e, (none : Option GoErr)))
      (some (q.drop ack.toNat), nackEmits ++ ackEmits)

/-- `pendingEmitter.Nack` from state.go: all entries up to the end of the
aligned `[serial, serial+count)` range are completed with the carried error
(`nil` if none); `none` queue on the panicking negative range. -/
def pendingNack (q : List MsgCh) (msg : ProtoMsg) (errInfo : Option Nat) :
    Option (List MsgCh) × List (MsgCh × Option GoErr) :=
  if q.length = 0 then (some q, [])
  else
    let i := pendingSearch q msg
    let nack : Int :=
      if i = q.length then q.length
      else if (q.getD i ⟨⟨0, 0⟩, 0⟩).msg.msgSerial = msg.msgSerial then
        min ((i : Int) + msg.count) q.length
      else min ((i : Int) + 1 + msg.count) q.length
    let err := unwrapNil errInfo
    if nack < 0 then (none, [])
    else (some (q.drop nack.toNat), (q.take nack.toNat).map (fun e => (e, err)))

/-- One user-visible operation on the pending-ack queue. -/
inductive QueueOp where
  | enq (msg : ProtoMsg) (ch : Nat)
  | ack (msg : ProtoMsg) (errInfo : Option Nat)
  | nack (msg : ProtoMsg) (errInfo : Option Nat)

/-- Apply one operation to the queue.  When `Ack`/`Nack` panic, the Go field
`q.queue` has not been reassigned, so the queue state is unchanged. -/
def queueStep (q : List MsgCh) : QueueOp → List MsgCh
  | .enq msg ch => pendingEnqueue q msg ch
  | .ack msg e => ((pendingAck q msg e).1).getD q
  | .nack msg e => ((pendingNack q msg e).1).getD q

/-- Run a sequence of operations from the empty queue of `newPendingEmitter`. -/
def runQueueOps (ops : List QueueOp) : List MsgCh :=
  ops.foldl queueStep []

/-- The strictly-ascending-serial ordering between queue entries. -/
def serialLt (a b : MsgCh) : Prop := a.msg.msgSerial < b.msg.msgSerial

/-! ### Host resolution (state.go: `resolveHost`) and fallback shuffling -/

/-- `resolveHost` from state.go. -/
def resolveHost (host environment defaultHost : GoStr) : GoStr :=
  let host1 := if host = [] then defaultHost else host
  if host1 = defaultHost ∧ environment ≠ [] ∧ environment ≠ gs "production" then
    environment ++ '-' :: host1
  else host1

/-- Go `rand.Intn(n)` with an injected random source (`rng` gives the raw
draw for each successive call): panics — `none` — when `n ≤ 0`. -/
def randIntn (draw : Nat) (n : Int) : Option Nat :=
  if n ≤ 0 then none else some (draw % n.toNat)

/-- Swap two positions of a list (Go parallel assignment `l[i], l[n] = ...`). -/
def swapIdx (l : List GoStr) (i n : Nat) : List GoStr :=
  match l.get? i, l.get? n with
  | some a, some b => (l.set i b).set n a
  | _, _ => l

/-- The loop of `ablyutil.Shuffle`: the first argument counts the remaining
iterations (`i` ranges over the indices of the original list); each step
draws `rand.Intn(len(l)-1)` and swaps. -/
def shuffleLoop (rng : Nat → Nat) (len : Nat) : Nat → Nat → List GoStr → Option (List GoStr)
  | 0, _, l => some l
  | fuel + 1, i, l =>
    match randIntn (rng i) ((len : Int) - 1) with
    | none => none
    | some n => shuffleLoop rng len fuel (i + 1) (swapIdx l i n)

/-- `ablyutil.Shuffle` from internal/ablyutil/strings.go, with the RNG
injected: for each index of the list it draws `rand.Intn(len(l)-1)` — which
panics when the list has exactly one element — and swaps. -/
def Shuffle (rng : Nat → Nat) (l : List GoStr) : Option (List GoStr) :=
  shuffleLoop rng l.length l.length 0 l

/-! ### Paginated-result link resolution (`PaginatedResult.buildPath`) -/

/-- Go `strings.IndexRune(s, c)`: index of the first occurrence, or -1. -/
def goIndexRune (s : GoStr) (c : Char) : Int :=
  match s.findIdx? (fun x => x = c) with
  | some i => (i : Int)
  | none => -1

/-- One step of the segment-stack form of Go `path.Clean`. -/
def cleanStep (rooted : Bool) (stack : List GoStr) (seg : GoStr) : List GoStr :=
  if seg = [] ∨ seg = ['.'] then stack
  else if seg = ['.', '.'] then
    match stack with
    | t :: rest => if t = ['.', '.'] then seg :: t :: rest else rest
    | [] => if rooted then [] else [seg]
  else seg :: stack

/-- Model of Go `path.Clean` (lexical processing of `.`/`..`/`//`; an empty
result collapses to `.`). -/
def goPathClean (p : GoStr) : GoStr :=
  match p with
  | [] => ['.']
  | _ =>
    let rooted := p.head? = some '/'
    let stack := (splitOnSlash p).foldl (cleanStep rooted) []
    let core := joinSlash stack.reverse
    if rooted then '/' :: core
    else if core = [] then ['.'] else core

/-- Model of Go `path.Dir`: everything up to and including the final slash,
cleaned (`.` when there is no slash). -/
def goPathDir (p : GoStr) : GoStr :=
  match (p.reverse.findIdx? (fun c => c = '/')) with
  | some ri => goPathClean (p.take (p.length - ri))
  | none => goPathClean []

/-- Model of Go `path.Join` on two elements: empty elements are dropped, the
rest joined with a slash and cleaned. -/
def goPathJoin (a b : GoStr) : GoStr :=
  if a ≠ [] then goPathClean (a ++ '/' :: b)
  else if b ≠ [] then goPathClean b
  else []

/-- `PaginatedResult.buildPath` from the paginator: strip any query string
from the current path, then join the relative link onto its directory. -/
def buildPath (origPath newRelativePath : GoStr) : GoStr :=
  let stripped :=
    if goIndexRune origPath '?' ≠ -1 then
      origPath.take (goIndexRune origPath '?').toNat
    else origPath
  goPathJoin (goPathDir stripped) newRelativePath

/-- The resolution rule in the spec's words: the link is joined onto the
directory of the path component of the currently-loaded path, with any query
string (everything from the first `?` on) stripped — not onto the full path. -/
def linkResolveSpec (curPath link : GoStr) : GoStr :=
  goPathJoin (goPathDir (curPath.takeWhile (fun c => c ≠ '?'))) link

/-! ## Theorems

First, infrastructure lemmas about the string, base64, UTF-8 and JSON
models; then one theorem (with witness or counterexample) per claim. -/

/-! ### Chain-splitting lemmas -/

theorem splitOnSlash_ne_nil : ∀ s : GoStr, splitOnSlash s ≠ []
  | [] => by simp [splitOnSlash]
  | c :: rest => by
    by_cases h : c = '/' <;> simp only [splitOnSlash, h, if_true, if_false]
    · simp
    · cases hs : splitOnSlash rest with
      | nil => simp
      | cons t ts => simp [h, hs]

theorem joinSlash_splitOnSlash : ∀ s : GoStr, joinSlash (splitOnSlash s) = s
  | [] => by simp [splitOnSlash, joinSlash]
  | c :: rest => by
    have ih := joinSlash_splitOnSlash rest
    by_cases h : c = '/'
    · subst h
      simp only [splitOnSlash, if_true]
      cases hs : splitOnSlash rest with
      | nil => exact absurd hs (splitOnSlash_ne_nil rest)
      | cons t ts =>
        rw [hs] at ih
        cases ts with
        | nil => simpa [joinSlash] using ih
        | cons u ts' => simpa [joinSlash] using ih
    · simp only [splitOnSlash, h, if_false]
      cases hs : splitOnSlash rest with
      | nil => exact absurd hs (splitOnSlash_ne_nil rest)
      | cons t ts =>
        rw [hs] at ih
        cases ts with
        | nil => simpa [joinSlash] using ih
        | cons u ts' => simpa [joinSlash] using ih

/-- Splitting a token with no slash gives just that token. -/
theorem splitOnSlash_no_slash : ∀ s : GoStr, '/' ∉ s → splitOnSlash s = [s]
  | [], _ => by simp [splitOnSlash]
  | c :: rest, h => by
    have hc : c ≠ '/' := fun hc => h (hc ▸ List.mem_cons_self c rest)
    have ih := splitOnSlash_no_slash rest (fun hm => h (List.mem_cons_of_mem c hm))
    simp [splitOnSlash, hc, ih]

/-- Splitting a chain headed by a slash-free token. -/
theorem splitOnSlash_append : ∀ a b : GoStr, '/' ∉ a →
    splitOnSlash (a ++ '/' :: b) = a :: splitOnSlash b
  | [], b, _ => by simp [splitOnSlash]
  | c :: rest, b, h => by
    have hc : c ≠ '/' := fun hc => h (hc ▸ List.mem_cons_self c rest)
    have ih := splitOnSlash_append rest b (fun hm => h (List.mem_cons_of_mem c hm))
    simp only [List.cons_append, splitOnSlash, hc, if_false, List.append_eq, ih]

/-- Splitting a two-token merge built by `mergeEncoding` from an empty chain. -/
theorem splitOnSlash_mergeEncoding (a b : GoStr) (ha : a ≠ []) (hb : '/' ∉ a) :
    splitOnSlash (mergeEncoding a b) = a :: splitOnSlash b := by
  simp only [mergeEncoding, ha, if_false]
  exact splitOnSlash_append a b hb

/-- A chain built by `mergeEncoding` is never empty. -/
theorem mergeEncoding_ne_nil (a b : GoStr) (hb : b ≠ []) : mergeEncoding a b ≠ [] := by
  unfold mergeEncoding
  by_cases h : a = [] <;> simp [h, hb]

/-! ### base64 lemmas -/

theorem b64Val_b64Digit (d : Nat) (h : d < 64) : b64Val (b64Digit d) = some d := by
  interval_cases d <;> rfl

theorem b64Digit_ne_61 (d : Nat) (h : d < 64) : b64Digit d ≠ 61 := by
  interval_cases d <;> decide

theorem b64Digit_lt_128 (d : Nat) : b64Digit d < 128 := by
  unfold b64Digit
  split_ifs <;> omega

/-- Base64 roundtrip on actual byte lists. -/
theorem b64Decode_b64Encode : ∀ bs : List Nat, byteOk bs = true →
    b64Decode (b64Encode bs) = some bs
  | [], _ => by simp [b64Encode, b64Decode]
  | [b0], h => by
    have hb0 : b0 < 256 := by
      simp only [byteOk, List.all_cons, List.all_nil, Bool.and_eq_true,
        decide_eq_true_eq] at h
      exact h.1
    have d0 : b0 / 4 < 64 := by omega
    have d1 : b0 % 4 * 16 < 64 := by omega
    simp only [b64Encode, b64Decode, b64Val_b64Digit _ d0, b64Val_b64Digit _ d1]
    norm_num
    omega
  | [b0, b1], h => by
    have hb : b0 < 256 ∧ b1 < 256 := by
      simp only [byteOk, List.all_cons, List.all_nil, Bool.and_eq_true,
        decide_eq_true_eq] at h
      exact ⟨h.1, h.2.1⟩
    have d0 : b0 / 4 < 64 := by omega
    have d1 : b0 % 4 * 16 + b1 / 16 < 64 := by omega
    have d2 : b1 % 16 * 4 < 64 := by omega
    have hne : b64Digit (b1 % 16 * 4) ≠ 61 := b64Digit_ne_61 _ d2
    simp only [b64Encode, b64Decode, b64Val_b64Digit _ d0, b64Val_b64Digit _ d1,
      b64Val_b64Digit _ d2, hne, if_false]
    norm_num
    constructor <;> omega
  | b0 :: b1 :: b2 :: rest, h => by
    have hh : b0 < 256 ∧ b1 < 256 ∧ b2 < 256 ∧ rest.all (fun b => decide (b < 256)) = true := by
      simpa only [byteOk, List.all_cons, Bool.and_eq_true, decide_eq_true_eq] using h
    obtain ⟨hb0, hb1, hb2, hrest⟩ := hh
    have ih := b64Decode_b64Encode rest hrest
    have d0 : b0 / 4 < 64 := by omega
    have d1 : b0 % 4 * 16 + b1 / 16 < 64 := by omega
    have d2 : b1 % 16 * 4 + b2 / 64 < 64 := by omega
    have d3 : b2 % 64 < 64 := by omega
    have hne2 : b64Digit (b1 % 16 * 4 + b2 / 64) ≠ 61 := b64Digit_ne_61 _ d2
    have hne3 : b64Digit (b2 % 64) ≠ 61 := b64Digit_ne_61 _ d3
    simp only [b64Encode, b64Decode, b64Val_b64Digit _ d0, b64Val_b64Digit _ d1,
      b64Val_b64Digit _ d2, b64Val_b64Digit _ d3, hne2, hne3, if_false, ih, Option.map_some']
    simp only [Option.some.injEq, List.cons.injEq, and_true, true_and]
    refine ⟨by omega, by omega, by omega⟩

/-! ### ASCII and UTF-8 lemmas -/

theorem validUtf8Go_of_ascii : ∀ (fuel : Nat) (bs : List Nat), bs.length ≤ fuel →
    (∀ b ∈ bs, b < 128) → validUtf8Go fuel bs = true
  | _, [], _, _ => by simp [validUtf8Go]
  | 0, b :: bs, hf, _ => by simp at hf
  | fuel + 1, b :: bs, hf, h => by
    have hb : b < 128 := h b (List.mem_cons_self b bs)
    have ih := validUtf8Go_of_ascii fuel bs (by simpa using hf)
      (fun x hx => h x (List.mem_cons_of_mem b hx))
    simp only [validUtf8Go]
    rw [if_pos hb]
    exact ih

theorem validUtf8_of_ascii (bs : List Nat) (h : ∀ b ∈ bs, b < 128) : validUtf8 bs = true :=
  validUtf8Go_of_ascii bs.length bs (le_refl _) h

theorem b64Encode_ascii : ∀ bs : List Nat, ∀ c ∈ b64Encode bs, c < 128
  | [], c, hc => by simp [b64Encode] at hc
  | [b0], c, hc => by
    simp only [b64Encode, List.mem_cons, List.not_mem_nil, or_false] at hc
    rcases hc with h | h | h | h <;> subst h <;> first | exact b64Digit_lt_128 _ | omega
  | [b0, b1], c, hc => by
    simp only [b64Encode, List.mem_cons, List.not_mem_nil, or_false] at hc
    rcases hc with h | h | h | h <;> subst h <;> first | exact b64Digit_lt_128 _ | omega
  | b0 :: b1 :: b2 :: rest, c, hc => by
    simp only [b64Encode, List.mem_cons] at hc
    rcases hc with h | h | h | h | h
    · subst h; exact b64Digit_lt_128 _
    · subst h; exact b64Digit_lt_128 _
    · subst h; exact b64Digit_lt_128 _
    · subst h; exact b64Digit_lt_128 _
    · exact b64Encode_ascii rest c h

theorem validUtf8_b64Encode (bs : List Nat) : validUtf8 (b64Encode bs) = true :=
  validUtf8_of_ascii _ (b64Encode_ascii bs)

/-! ### Decimal printing and parsing -/

theorem natToDecAux_digits : ∀ fuel n : Nat, ∀ c ∈ natToDecAux fuel n, 48 ≤ c ∧ c ≤ 57
  | _, 0, c, hc => by simp [natToDecAux] at hc
  | 0, _ + 1, c, hc => by simp [natToDecAux] at hc
  | fuel + 1, n + 1, c, hc => by
    simp only [natToDecAux, List.mem_cons] at hc
    rcases hc with h | h
    · subst h; omega
    · exact natToDecAux_digits fuel ((n + 1) / 10) c h

theorem natToDec_digits (n : Nat) : ∀ c ∈ natToDec n, 48 ≤ c ∧ c ≤ 57 := by
  intro c hc
  unfold natToDec at hc
  by_cases h : n = 0
  · simp [h] at hc; omega
  · simp only [h, if_false, natToDecRev, List.mem_reverse] at hc
    exact natToDecAux_digits n n c hc

theorem foldl_natToDecAux (f : Nat → Nat → Nat) (hf : ∀ a c, f a c = a * 10 + (c - 48)) :
    ∀ fuel n acc : Nat, n ≤ fuel →
      List.foldl f acc (natToDecAux fuel n).reverse =
        acc * 10 ^ (natToDecAux fuel n).length + n := by
  intro fuel
  induction fuel with
  | zero =>
    intro n acc hn
    have : n = 0 := by omega
    subst this
    simp [natToDecAux]
  | succ fuel ih =>
    intro n acc hn
    match n with
    | 0 => simp [natToDecAux]
    | m + 1 =>
      have hdiv : (m + 1) / 10 ≤ fuel := by
        have := Nat.div_lt_self (Nat.succ_pos m) (by omega : (1 : Nat) < 10)
        omega
      simp only [natToDecAux, List.reverse_cons, List.foldl_append, List.foldl_cons,
        List.foldl_nil]
      rw [ih ((m + 1) / 10) acc hdiv, hf]
      simp only [List.length_cons, Nat.pow_succ]
      have hrw : acc * (10 ^ (natToDecAux fuel ((m + 1) / 10)).length * 10) =
          acc * 10 ^ (natToDecAux fuel ((m + 1) / 10)).length * 10 := by ring
      rw [hrw]
      generalize acc * 10 ^ (natToDecAux fuel ((m + 1) / 10)).length = A
      omega

theorem digitsToNat_natToDec (n : Nat) : digitsToNat (natToDec n) = n := by
  unfold digitsToNat natToDec
  by_cases h : n = 0
  · simp [h]
  · simp only [h, if_false, natToDecRev]
    rw [foldl_natToDecAux _ (fun a c => rfl) n n 0 (le_refl n)]
    simp

theorem natToDec_ne_nil (n : Nat) : natToDec n ≠ [] := by
  unfold natToDec
  by_cases h : n = 0
  · simp [h]
  · simp only [h, if_false, natToDecRev]
    obtain ⟨m, rfl⟩ : ∃ m, n = m + 1 := ⟨n - 1, by omega⟩
    simp [natToDecAux]

theorem takeWhile_digit_run : ∀ ds rest : List Nat,
    (∀ c ∈ ds, isDigitByte c = true) → headNotDigit rest = true →
    (ds ++ rest).takeWhile isDigitByte = ds ∧ (ds ++ rest).dropWhile isDigitByte = rest
  | [], rest, _, hr => by
    cases rest with
    | nil => simp
    | cons c cs =>
      simp only [headNotDigit, Bool.not_eq_true'] at hr
      simp [List.takeWhile_cons, List.dropWhile_cons, hr]
  | d :: ds, rest, hds, hr => by
    have hd : isDigitByte d = true := hds d (List.mem_cons_self d ds)
    have ih := takeWhile_digit_run ds rest (fun c hc => hds c (List.mem_cons_of_mem d hc)) hr
    simp [List.takeWhile_cons, List.dropWhile_cons, hd, ih.1, ih.2]

theorem parseDigits_run (ds rest : List Nat) (hds : ∀ c ∈ ds, isDigitByte c = true)
    (hne : ds ≠ []) (hr : headNotDigit rest = true) :
    parseDigits (ds ++ rest) = some (digitsToNat ds, rest) := by
  obtain ⟨h1, h2⟩ := takeWhile_digit_run ds rest hds hr
  simp [parseDigits, h1, h2, hne]

/-! ### JSON string escaping -/

theorem hexVal_hexDigit (d : Nat) (h : d < 16) : hexVal (hexDigit d) = some d := by
  interval_cases d <;> rfl

theorem hexDigit_lt_128 (d : Nat) (h : d < 16) : hexDigit d < 128 := by
  unfold hexDigit
  split_ifs <;> omega

theorem escapeByte_ascii (b : Nat) (hb : b < 256) : ∀ c ∈ escapeByte b, c < 128 := by
  intro c hc
  unfold escapeByte at hc
  split_ifs at hc <;> simp only [List.mem_cons, List.not_mem_nil, or_false] at hc
  · rcases hc with h | h <;> omega
  · rcases hc with h | h <;> omega
  · omega
  · have h1 : hexDigit (b / 16) < 128 := hexDigit_lt_128 _ (by omega)
    have h2 : hexDigit (b % 16) < 128 := hexDigit_lt_128 _ (by omega)
    rcases hc with h | h | h | h | h | h <;> omega

theorem escapeBytes_ascii : ∀ s : List Nat, byteOk s = true → ∀ c ∈ escapeBytes s, c < 128
  | [], _, c, hc => by simp [escapeBytes] at hc
  | b :: s, h, c, hc => by
    have hh : b < 256 ∧ byteOk s = true := by
      simpa only [byteOk, List.all_cons, Bool.and_eq_true, decide_eq_true_eq] using h
    simp only [escapeBytes, List.map_cons, List.flatten_cons, List.mem_append] at hc
    rcases hc with h1 | h1
    · exact escapeByte_ascii b hh.1 c h1
    · exact escapeBytes_ascii s hh.2 c h1

/-- Scanning the escaped form of a byte string recovers it. -/
theorem scanStr_escapeBytes : ∀ (s : List Nat), byteOk s = true → ∀ rest : List Nat,
    scanStr (escapeBytes s ++ 34 :: rest) = some (s, rest)
  | [], _, rest => by simp [escapeBytes, scanStr]
  | b :: s, h, rest => by
    have hh : b < 256 ∧ byteOk s = true := by
      simpa only [byteOk, List.all_cons, Bool.and_eq_true, decide_eq_true_eq] using h
    have ih := scanStr_escapeBytes s hh.2 rest
    by_cases h34 : b = 34
    · subst h34
      have hsh : escapeBytes (34 :: s) ++ 34 :: rest =
          92 :: 34 :: (escapeBytes s ++ 34 :: rest) := by
        simp [escapeBytes, escapeByte]
      rw [hsh]
      simp [scanStr, scanEsc, ih]
    · by_cases h92 : b = 92
      · subst h92
        have hsh : escapeBytes (92 :: s) ++ 34 :: rest =
            92 :: 92 :: (escapeBytes s ++ 34 :: rest) := by
          simp [escapeBytes, escapeByte]
        rw [hsh]
        simp [scanStr, scanEsc, ih]
      · by_cases hpr : 32 ≤ b ∧ b ≤ 126
        · have hsh : escapeBytes (b :: s) ++ 34 :: rest =
              b :: (escapeBytes s ++ 34 :: rest) := by
            simp [escapeBytes, escapeByte, h34, h92, hpr]
          rw [hsh, scanStr, if_neg h34, if_neg h92, ih]
          rfl
        · have hsh : escapeBytes (b :: s) ++ 34 :: rest =
              92 :: 117 :: 48 :: 48 :: hexDigit (b / 16) :: hexDigit (b % 16) ::
                (escapeBytes s ++ 34 :: rest) := by
            simp [escapeBytes, escapeByte, h34, h92, hpr]
          have hd1 : hexVal (hexDigit (b / 16)) = some (b / 16) :=
            hexVal_hexDigit _ (by omega)
          have hd2 : hexVal (hexDigit (b % 16)) = some (b % 16) :=
            hexVal_hexDigit _ (by omega)
          rw [hsh, scanStr]
          norm_num
          rw [scanEsc, hd1, hd2]
          rw [ih]
          simp only [Option.map_some', Option.some.injEq, Prod.mk.injEq, List.cons.injEq,
            and_true]
          have hb : b < 256 := hh.1
          simp only [show hexVal 48 = some 0 from rfl, Option.some.injEq, Prod.mk.injEq,
            List.cons.injEq, and_true]
          omega

/-! ### Shape facts about the JSON serializer -/

theorem intToDec_ascii (n : Int) : ∀ c ∈ intToDec n, c < 128 := by
  intro c hc
  unfold intToDec at hc
  split_ifs at hc
  · simp only [List.mem_cons] at hc
    rcases hc with h | h
    · omega
    · have := natToDec_digits _ _ h
      omega
  · have := natToDec_digits _ _ hc
    omega

theorem intToDec_head (n : Int) :
    ∃ c cs, intToDec n = c :: cs ∧ (c = 45 ∨ (48 ≤ c ∧ c ≤ 57)) := by
  unfold intToDec
  split_ifs with h
  · exact ⟨45, natToDec (-n).toNat, rfl, Or.inl rfl⟩
  · obtain ⟨c, cs, hcs⟩ := List.exists_cons_of_ne_nil (natToDec_ne_nil n.toNat)
    refine ⟨c, cs, hcs, Or.inr ?_⟩
    exact natToDec_digits _ c (hcs ▸ List.mem_cons_self c cs)

theorem asciiAll_iff (l : List Nat) : asciiAll l = true ↔ ∀ c ∈ l, c < 128 := by
  simp [asciiAll, List.all_eq_true]

theorem asciiAll_escapeBytes (s : List Nat) (h : byteOk s = true) :
    asciiAll (escapeBytes s) = true :=
  (asciiAll_iff _).mpr (escapeBytes_ascii s h)

theorem asciiAll_intToDec (n : Int) : asciiAll (intToDec n) = true :=
  (asciiAll_iff _).mpr (intToDec_ascii n)

/-! The serializer emits plain ASCII on well-formed values. -/
mutual
theorem jsonMarshal_asciiAll : ∀ v : Jv, jvWf v = true → asciiAll (jsonMarshal v) = true
  | .jnull, _ => by decide
  | .jbool true, _ => by decide
  | .jbool false, _ => by decide
  | .jnum n, _ => asciiAll_intToDec n
  | .jstr s, h => by
    simp only [jvWf] at h
    have he := asciiAll_escapeBytes s h
    simp only [jsonMarshal, asciiAll, List.all_cons, List.all_append, List.all_nil,
      Bool.and_eq_true] at he ⊢
    simp [he]
  | .jarr .nil, _ => by decide
  | .jarr (.cons x xs), h => by
    simp only [jvWf] at h
    have he := marshalElems_asciiAll (.cons x xs) h
    simp only [jsonMarshal, asciiAll, List.all_cons, List.all_append, List.all_nil,
      Bool.and_eq_true] at he ⊢
    simp [he]
  | .jobj .nil, _ => by decide
  | .jobj (.cons k v fs), h => by
    simp only [jvWf] at h
    have he := marshalFields_asciiAll (.cons k v fs) h
    simp only [jsonMarshal, asciiAll, List.all_cons, List.all_append, List.all_nil,
      Bool.and_eq_true] at he ⊢
    simp [he]
theorem marshalElems_asciiAll : ∀ xs : JvList, jvlWf xs = true →
    asciiAll (marshalElems xs) = true
  | .nil, _ => by decide
  | .cons x .nil, h => by
    simp only [jvlWf, Bool.and_eq_true] at h
    exact jsonMarshal_asciiAll x h.1
  | .cons x (.cons y ys), h => by
    rw [jvlWf, Bool.and_eq_true] at h
    have h1 := jsonMarshal_asciiAll x h.1
    have h3 := marshalElems_asciiAll (.cons y ys) h.2
    simp only [marshalElems, asciiAll, List.all_append, List.all_cons,
      Bool.and_eq_true] at h1 h3 ⊢
    simp [h1, h3]
theorem marshalFields_asciiAll : ∀ fs : JvFields, jvfWf fs = true →
    asciiAll (marshalFields fs) = true
  | .nil, _ => by decide
  | .cons k v .nil, h => by
    simp only [jvfWf, Bool.and_eq_true] at h
    have h1 := asciiAll_escapeBytes k h.1.1
    have h2 := jsonMarshal_asciiAll v h.1.2
    simp only [marshalFields, asciiAll, List.all_cons, List.all_append, List.all_nil,
      Bool.and_eq_true] at h1 h2 ⊢
    simp [h1, h2]
  | .cons k v (.cons k' v' fs), h => by
    rw [jvfWf, Bool.and_eq_true, Bool.and_eq_true] at h
    have h1 := asciiAll_escapeBytes k h.1.1
    have h2 := jsonMarshal_asciiAll v h.1.2
    have h3 := marshalFields_asciiAll (.cons k' v' fs) h.2
    simp only [marshalFields, asciiAll, List.all_cons, List.all_append, List.all_nil,
      Bool.and_eq_true] at h1 h2 h3 ⊢
    simp [h1, h2, h3]
end

theorem jsonMarshal_ascii (v : Jv) (h : jvWf v = true) : ∀ c ∈ jsonMarshal v, c < 128 :=
  (asciiAll_iff _).mp (jsonMarshal_asciiAll v h)

theorem validUtf8_jsonMarshal (v : Jv) (h : jvWf v = true) :
    validUtf8 (jsonMarshal v) = true :=
  validUtf8_of_ascii _ (jsonMarshal_ascii v h)

/-- The serializer's output always starts with a byte other than `]`, `}` or
`,` (used to steer the parser's lookahead). -/
theorem jsonMarshal_head (v : Jv) :
    ∃ c cs, jsonMarshal v = c :: cs ∧ c ≠ 93 ∧ c ≠ 125 ∧ c ≠ 44 := by
  cases v with
  | jnull => exact ⟨110, _, rfl, by omega, by omega, by omega⟩
  | jbool b =>
    cases b with
    | true => exact ⟨116, _, rfl, by omega, by omega, by omega⟩
    | false => exact ⟨102, _, rfl, by omega, by omega, by omega⟩
  | jnum n =>
    obtain ⟨c, cs, hcs, hc⟩ := intToDec_head n
    exact ⟨c, cs, hcs, by omega, by omega, by omega⟩
  | jstr s => exact ⟨34, _, rfl, by omega, by omega, by omega⟩
  | jarr xs =>
    cases xs with
    | nil => exact ⟨91, _, rfl, by omega, by omega, by omega⟩
    | cons x xs => exact ⟨91, _, rfl, by omega, by omega, by omega⟩
  | jobj fs =>
    cases fs with
    | nil => exact ⟨123, _, rfl, by omega, by omega, by omega⟩
    | cons k v fs => exact ⟨123, _, rfl, by omega, by omega, by omega⟩

theorem jsonMarshal_ne_nil (v : Jv) : jsonMarshal v ≠ [] := by
  obtain ⟨c, cs, hcs, -⟩ := jsonMarshal_head v
  simp [hcs]

/-! The parser-fuel measure is dominated by the serialized length. -/
mutual
theorem msize_le : ∀ v : Jv, msize v ≤ (jsonMarshal v).length
  | .jnull => by simp [msize, jsonMarshal]
  | .jbool true => by simp [msize, jsonMarshal]
  | .jbool false => by simp [msize, jsonMarshal]
  | .jnum n => by
    have := jsonMarshal_ne_nil (.jnum n)
    have hlen : 0 < (jsonMarshal (.jnum n)).length := List.length_pos.mpr this
    simp only [msize]
    omega
  | .jstr s => by simp [msize, jsonMarshal]
  | .jarr .nil => by simp [msize, jsonMarshal]
  | .jarr (.cons x xs) => by
    have h := lsize_le (.cons x xs)
    simp only [msize, jsonMarshal, List.length_cons, List.length_append, List.length_cons,
      List.length_nil]
    omega
  | .jobj .nil => by simp [msize, jsonMarshal]
  | .jobj (.cons k v fs) => by
    have h := fsize_le (.cons k v fs)
    simp only [msize, jsonMarshal, List.length_cons, List.length_append, List.length_cons,
      List.length_nil]
    omega
theorem lsize_le : ∀ xs : JvList, lsize xs ≤ (marshalElems xs).length + 1
  | .nil => by simp [lsize, marshalElems]
  | .cons x .nil => by
    have := msize_le x
    simp only [lsize, marshalElems]
    omega
  | .cons x (.cons y ys) => by
    have h1 := msize_le x
    have h2 := lsize_le (.cons y ys)
    have h3 : 0 < (jsonMarshal x).length := List.length_pos.mpr (jsonMarshal_ne_nil x)
    simp only [lsize, marshalElems, List.length_append, List.length_cons]
    omega
theorem fsize_le : ∀ fs : JvFields, fsize fs ≤ (marshalFields fs).length + 1
  | .nil => by simp [fsize, marshalFields]
  | .cons k v .nil => by
    have := msize_le v
    simp only [fsize, marshalFields, List.length_cons, List.length_append]
    omega
  | .cons k v (.cons k' v' fs) => by
    have h1 := msize_le v
    have h2 := fsize_le (.cons k' v' fs)
    simp only [fsize, marshalFields, List.length_cons, List.length_append]
    omega
end

/-! ### Parser inverts serializer -/

theorem msize_pos (v : Jv) : 1 ≤ msize v := by
  cases v with
  | jnull => simp [msize]
  | jbool b => simp [msize]
  | jnum n => simp [msize]
  | jstr s => simp [msize]
  | jarr xs => cases xs <;> simp [msize]
  | jobj fs => cases fs <;> simp [msize]

theorem isDigitByte_natToDec (m : Nat) : ∀ c ∈ natToDec m, isDigitByte c = true := by
  intro c hc
  have := natToDec_digits m c hc
  simp only [isDigitByte, decide_eq_true_eq]
  omega

theorem parseVal_intToDec (fuel : Nat) (n : Int) (rest : List Nat)
    (hr : headNotDigit rest = true) :
    parseVal (fuel + 1) (intToDec n ++ rest) = some (.jnum n, rest) := by
  unfold intToDec
  split_ifs with hn
  · have hrun := parseDigits_run (natToDec (-n).toNat) rest (isDigitByte_natToDec _)
      (natToDec_ne_nil _) hr
    simp only [List.cons_append]
    rw [parseVal]
    norm_num
    rw [hrun, digitsToNat_natToDec]
    simp only [Option.map_some', Option.some.injEq, Prod.mk.injEq, Jv.jnum.injEq, and_true,
      Option.map_eq_some']
    exact ⟨(-n).toNat, rfl, by omega⟩
  · obtain ⟨c, cs, hcs⟩ := List.exists_cons_of_ne_nil (natToDec_ne_nil n.toNat)
    have hdig : 48 ≤ c ∧ c ≤ 57 := natToDec_digits _ c (hcs ▸ List.mem_cons_self c cs)
    rw [hcs, List.cons_append, parseVal]
    rw [if_neg (by omega), if_neg (by omega), if_neg (by omega), if_neg (by omega),
      if_neg (by omega), if_neg (by omega), if_neg (by omega)]
    rw [show c :: (cs ++ rest) = natToDec n.toNat ++ rest by rw [hcs, List.cons_append]]
    rw [parseDigits_run (natToDec n.toNat) rest (isDigitByte_natToDec _)
      (natToDec_ne_nil _) hr, digitsToNat_natToDec]
    simp only [Option.map_some', Option.some.injEq, Prod.mk.injEq, Jv.jnum.injEq, and_true,
      Option.map_eq_some']
    omega

mutual
theorem parseVal_jsonMarshal : ∀ (v : Jv) (fuel : Nat) (rest : List Nat),
    jvWf v = true → msize v ≤ fuel + 1 → headNotDigit rest = true →
    parseVal (fuel + 1) (jsonMarshal v ++ rest) = some (v, rest)
  | .jnull, fuel, rest, _, _, _ => by
    show parseVal (fuel + 1) (110 :: 117 :: 108 :: 108 :: rest) = _
    rw [parseVal]
    norm_num
    simp [expectTail]
  | .jbool true, fuel, rest, _, _, _ => by
    show parseVal (fuel + 1) (116 :: 114 :: 117 :: 101 :: rest) = _
    rw [parseVal]
    norm_num
    simp [expectTail]
  | .jbool false, fuel, rest, _, _, _ => by
    show parseVal (fuel + 1) (102 :: 97 :: 108 :: 115 :: 101 :: rest) = _
    rw [parseVal]
    norm_num
    simp [expectTail]
  | .jnum n, fuel, rest, _, _, hr => parseVal_intToDec fuel n rest hr
  | .jstr s, fuel, rest, hwf, _, _ => by
    rw [jvWf] at hwf
    have hscan := scanStr_escapeBytes s hwf rest
    have hshape : jsonMarshal (.jstr s) ++ rest = 34 :: (escapeBytes s ++ 34 :: rest) := by
      simp [jsonMarshal]
    rw [hshape, parseVal]
    norm_num
    rw [hscan]
  | .jarr .nil, fuel, rest, _, _, _ => by
    have hshape : jsonMarshal (.jarr .nil) ++ rest = 91 :: 93 :: rest := by
      simp [jsonMarshal]
    rw [hshape, parseVal]
    norm_num
  | .jarr (.cons x xs), fuel, rest, hwf, hsz, _ => by
    rw [jvWf] at hwf
    have hlsz : lsize (.cons x xs) ≤ fuel := by
      simp only [msize] at hsz
      omega
    obtain ⟨c0, cs0, hm, h93, -, -⟩ := jsonMarshal_head x
    have hshape : jsonMarshal (.jarr (.cons x xs)) ++ rest =
        91 :: (marshalElems (.cons x xs) ++ 93 :: rest) := by
      simp [jsonMarshal]
    have h1 : marshalElems (.cons x xs) ≠ [] := by
      cases xs <;> simp [marshalElems, hm]
    have h2 : (marshalElems (.cons x xs)).head? ≠ some 93 := by
      cases xs <;> simp [marshalElems, hm, h93]
    have hrec := parseElems_jsonMarshal (.cons x xs) fuel rest hwf hlsz
      (fun h => JvList.noConfusion h)
    rw [hshape]
    simp [parseVal, h1, h2, hrec]
  | .jobj .nil, fuel, rest, _, _, _ => by
    have hshape : jsonMarshal (.jobj .nil) ++ rest = 123 :: 125 :: rest := by
      simp [jsonMarshal]
    rw [hshape, parseVal]
    norm_num
  | .jobj (.cons k v fs), fuel, rest, hwf, hsz, _ => by
    rw [jvWf] at hwf
    have hfsz : fsize (.cons k v fs) ≤ fuel := by
      simp only [msize] at hsz
      omega
    have hshape : jsonMarshal (.jobj (.cons k v fs)) ++ rest =
        123 :: (marshalFields (.cons k v fs) ++ 125 :: rest) := by
      simp [jsonMarshal]
    have h1 : marshalFields (.cons k v fs) ≠ [] := by
      cases fs <;> simp [marshalFields]
    have h2 : (marshalFields (.cons k v fs)).head? ≠ some 125 := by
      cases fs <;> simp [marshalFields]
    have hrec := parseFields_jsonMarshal (.cons k v fs) fuel rest hwf hfsz
      (fun h => JvFields.noConfusion h)
    rw [hshape]
    simp [parseVal, h1, h2, hrec]
theorem parseElems_jsonMarshal : ∀ (xs : JvList) (fuel : Nat) (rest : List Nat),
    jvlWf xs = true → lsize xs ≤ fuel → xs ≠ .nil →
    parseElems fuel (marshalElems xs ++ 93 :: rest) = some (xs, rest)
  | .nil, _, _, _, _, hne => absurd rfl hne
  | .cons x .nil, fuel, rest, hwf, hsz, _ => by
    rw [jvlWf, Bool.and_eq_true] at hwf
    have hx := msize_pos x
    have hsz' : 1 + msize x ≤ fuel := by simpa only [lsize] using hsz
    obtain ⟨g, rfl⟩ : ∃ g, fuel = g + 1 := ⟨fuel - 1, by omega⟩
    obtain ⟨g', rfl⟩ : ∃ g', g = g' + 1 := ⟨g - 1, by omega⟩
    have hv := parseVal_jsonMarshal x g' (93 :: rest) hwf.1 (by omega)
      (by simp [headNotDigit, isDigitByte])
    rw [parseElems]
    rw [show marshalElems (.cons x .nil) ++ 93 :: rest = jsonMarshal x ++ 93 :: rest
      from rfl]
    simp [hv]
  | .cons x (.cons y ys), fuel, rest, hwf, hsz, _ => by
    rw [jvlWf, Bool.and_eq_true] at hwf
    have hx := msize_pos x
    have hsz' : 1 + max (msize x) (lsize (.cons y ys)) ≤ fuel := by
      simpa only [lsize] using hsz
    obtain ⟨g, rfl⟩ : ∃ g, fuel = g + 1 := ⟨fuel - 1, by omega⟩
    obtain ⟨g', rfl⟩ : ∃ g', g = g' + 1 := ⟨g - 1, by omega⟩
    have hv := parseVal_jsonMarshal x g'
      (44 :: (marshalElems (.cons y ys) ++ 93 :: rest)) hwf.1 (by omega)
      (by simp [headNotDigit, isDigitByte])
    have hrec := parseElems_jsonMarshal (.cons y ys) (g' + 1) rest hwf.2 (by omega)
      (fun h => JvList.noConfusion h)
    rw [parseElems]
    rw [show marshalElems (.cons x (.cons y ys)) ++ 93 :: rest =
        jsonMarshal x ++ (44 :: (marshalElems (.cons y ys) ++ 93 :: rest)) from by
      simp [marshalElems]]
    simp [hv, hrec]
theorem parseFields_jsonMarshal : ∀ (fs : JvFields) (fuel : Nat) (rest : List Nat),
    jvfWf fs = true → fsize fs ≤ fuel → fs ≠ .nil →
    parseFields fuel (marshalFields fs ++ 125 :: rest) = some (fs, rest)
  | .nil, _, _, _, _, hne => absurd rfl hne
  | .cons k v .nil, fuel, rest, hwf, hsz, _ => by
    rw [jvfWf, Bool.and_eq_true, Bool.and_eq_true] at hwf
    have hx := msize_pos v
    have hsz' : 1 + msize v ≤ fuel := by simpa only [fsize] using hsz
    obtain ⟨g, rfl⟩ : ∃ g, fuel = g + 1 := ⟨fuel - 1, by omega⟩
    obtain ⟨g', rfl⟩ : ∃ g', g = g' + 1 := ⟨g - 1, by omega⟩
    have hscan := scanStr_escapeBytes k hwf.1.1 (58 :: (jsonMarshal v ++ 125 :: rest))
    have hv := parseVal_jsonMarshal v g' (125 :: rest) hwf.1.2 (by omega)
      (by simp [headNotDigit, isDigitByte])
    have hshape : marshalFields (.cons k v .nil) ++ 125 :: rest =
        34 :: (escapeBytes k ++ 34 :: (58 :: (jsonMarshal v ++ 125 :: rest))) := by
      simp [marshalFields]
    rw [hshape, parseFields]
    simp [hscan, hv]
  | .cons k v (.cons k1 v1 fs1), fuel, rest, hwf, hsz, _ => by
    rw [jvfWf, Bool.and_eq_true, Bool.and_eq_true] at hwf
    have hx := msize_pos v
    have hsz' : 1 + max (msize v) (fsize (.cons k1 v1 fs1)) ≤ fuel := by
      simpa only [fsize] using hsz
    obtain ⟨g, rfl⟩ : ∃ g, fuel = g + 1 := ⟨fuel - 1, by omega⟩
    obtain ⟨g', rfl⟩ : ∃ g', g = g' + 1 := ⟨g - 1, by omega⟩
    have hscan := scanStr_escapeBytes k hwf.1.1
      (58 :: (jsonMarshal v ++ 44 :: (marshalFields (.cons k1 v1 fs1) ++ 125 :: rest)))
    have hv := parseVal_jsonMarshal v g'
      (44 :: (marshalFields (.cons k1 v1 fs1) ++ 125 :: rest)) hwf.1.2 (by omega)
      (by simp [headNotDigit, isDigitByte])
    have hrec := parseFields_jsonMarshal (.cons k1 v1 fs1) (g' + 1) rest hwf.2 (by omega)
      (fun h => JvFields.noConfusion h)
    have hshape : marshalFields (.cons k v (.cons k1 v1 fs1)) ++ 125 :: rest =
        34 :: (escapeBytes k ++ 34 :: (58 :: (jsonMarshal v ++
          44 :: (marshalFields (.cons k1 v1 fs1) ++ 125 :: rest)))) := by
      simp [marshalFields]
    rw [hshape, parseFields]
    simp [hscan, hv, hrec]
end

/-- `json.Unmarshal` inverts `json.Marshal` on well-formed values. -/
theorem jsonUnmarshal_jsonMarshal (v : Jv) (h : jvWf v = true) :
    jsonUnmarshal (jsonMarshal v) = some v := by
  unfold jsonUnmarshal
  have hlen : msize v ≤ (jsonMarshal v).length + 1 := le_trans (msize_le v) (by omega)
  have hrt := parseVal_jsonMarshal v (jsonMarshal v).length [] h hlen rfl
  rw [List.append_nil] at hrt
  rw [hrt]

/-! ### Claim C10: nil data and empty encoding are passed through -/

/-- C10: a message with nil data is returned unchanged with no error by
`withEncodedData` for every cipher, and a message with nil data or an empty
encoding chain is returned unchanged with no error by `withDecodedData`. -/
theorem C10_nil_passthrough (m : Message) (cipher : Option ChannelCipher) :
    (m.data = none →
      withEncodedData m cipher = .ok m ∧ withDecodedData m cipher = (m, none)) ∧
    (m.encoding = [] → withDecodedData m cipher = (m, none)) := by
  refine ⟨fun hd => ⟨?_, ?_⟩, fun he => ?_⟩
  · simp [withEncodedData, hd]
  · simp [withDecodedData, hd]
  · simp [withDecodedData, he]

/-- Witness for C10 at a concrete message and cipher. -/
theorem C10_witness :
    withEncodedData { data := none, encoding := gs "json" } none =
      .ok { data := none, encoding := gs "json" } ∧
    withDecodedData { data := some (.vstr [104]), encoding := [] } none =
      ({ data := some (.vstr [104]), encoding := [] }, none) :=
  ⟨((C10_nil_passthrough { data := none, encoding := gs "json" } none).1 rfl).1,
    (C10_nil_passthrough { data := some (.vstr [104]), encoding := [] } none).2 rfl⟩

/-! ### Claim C5: the no-cipher encode policy -/

/-- C5 (amended): with non-nil data and no cipher, `withEncodedData` leaves
valid-UTF-8 string data unchanged with no token appended; a string that is
not valid UTF-8 is first reclassified as bytes; byte data becomes its base64
text with `base64` appended; any other value is JSON-marshaled and accepted
with `json` appended exactly when the marshaled text starts with `[` or `{`,
and otherwise (e.g. the scalar 42) an encoding error and no message is
returned. -/
theorem C5_encode_no_cipher (m : Message) (bs : List Nat) (v : Jv) :
    (m.data = some (.vstr bs) → validUtf8 bs = true →
      withEncodedData m none = .ok m) ∧
    (m.data = some (.vstr bs) → validUtf8 bs = false →
      withEncodedData m none =
        .ok { m with data := some (.vstr (b64Encode bs)),
                     encoding := mergeEncoding m.encoding encBase64 }) ∧
    (m.data = some (.vbytes bs) →
      withEncodedData m none =
        .ok { m with data := some (.vstr (b64Encode bs)),
                     encoding := mergeEncoding m.encoding encBase64 }) ∧
    (m.data = some (.vjson v) →
      (((jsonMarshal v).head? = some 91 ∨ (jsonMarshal v).head? = some 123) →
        withEncodedData m none =
          .ok { m with data := some (.vstr (jsonMarshal v)),
                       encoding := mergeEncoding m.encoding encJSON }) ∧
      (¬((jsonMarshal v).head? = some 91 ∨ (jsonMarshal v).head? = some 123) →
        withEncodedData m none = .error .notJsonObjectOrArray)) := by
  refine ⟨fun hd hv => ?_, fun hd hv => ?_, fun hd => ?_, fun hd => ⟨fun hj => ?_, fun hj => ?_⟩⟩
  · simp [withEncodedData, hd, hv]
    rw [← hd]
  · simp [withEncodedData, hd, hv]
  · simp [withEncodedData, hd]
  · simp [withEncodedData, hd, hj]
  · simp [withEncodedData, hd, hj]

/-- C5 counterexample to the claim as stated: a Go string that is not valid
UTF-8 is not left unchanged — it is reclassified as bytes, base64-encoded and
gets a `base64` token. -/
theorem C5_counterexample :
    withEncodedData { data := some (.vstr [128]) } none =
      .ok { data := some (.vstr [103, 65, 61, 61]), encoding := encBase64 } ∧
    withEncodedData { data := some (.vstr [128]) } none ≠
      .ok { data := some (.vstr [128]) } := by
  constructor <;> decide

/-- Witness for C5 at concrete messages: a UTF-8 string passes through, bytes
get base64/`base64`, an object gets `json`, and the scalar 42 is rejected. -/
theorem C5_witness :
    withEncodedData { data := some (.vstr [104, 105]) } none =
      .ok { data := some (.vstr [104, 105]) } ∧
    withEncodedData { data := some (.vbytes [0, 255]) } none =
      .ok { data := some (.vstr (b64Encode [0, 255])), encoding := encBase64 } ∧
    withEncodedData { data := some (.vjson (.jobj .nil)) } none =
      .ok { data := some (.vstr (jsonMarshal (.jobj .nil))), encoding := encJSON } ∧
    withEncodedData { data := some (.vjson (.jnum 42)) } none =
      .error .notJsonObjectOrArray := by
  refine ⟨(C5_encode_no_cipher _ [104, 105] .jnull).1 rfl (by decide), ?_, ?_, ?_⟩
  · obtain ⟨-, -, hC, -⟩ :=
      C5_encode_no_cipher { data := some (.vbytes [0, 255]) } [0, 255] .jnull
    simpa [mergeEncoding] using hC rfl
  · obtain ⟨-, -, -, hD⟩ :=
      C5_encode_no_cipher { data := some (.vjson (.jobj .nil)) } [] (.jobj .nil)
    simpa [mergeEncoding] using (hD rfl).1 (by decide)
  · obtain ⟨-, -, -, hD⟩ :=
      C5_encode_no_cipher { data := some (.vjson (.jnum 42)) } [] (.jnum 42)
    exact (hD rfl).2 (by decide)

/-! ### Claim C6: unknown encoding tokens -/

/-- The decode loop, upon reaching an unknown token after successfully
processing the tokens to its right, stops with an unknown-encoding error,
keeping the partially decoded payload and the unprocessed prefix of the chain
(which ends in the unknown token) in the returned message. -/
theorem decodeLoopRev_unknown : ∀ (revPost : List GoStr) (cipher : Option ChannelCipher)
    (m : Message) (unk : GoStr) (revPre : List GoStr) (d' : Option GoValue),
    m.encoding = joinSlash ((revPost ++ unk :: revPre).reverse) →
    runTokens cipher revPost m.data = .ok d' →
    unk ≠ encBase64 → unk ≠ encUTF8 → unk ≠ encJSON → ¬encCipher.isPrefixOf unk →
    decodeLoopRev cipher (revPost ++ unk :: revPre) m =
      ({ m with data := d', encoding := joinSlash ((unk :: revPre).reverse) },
        some (.unknownEncoding unk))
  | [], cipher, m, unk, revPre, d', henc, hrun, h1, h2, h3, h4 => by
    have hd : d' = m.data := by
      simpa [runTokens] using hrun.symm
    have hstep : decodeStep cipher unk m.data = .error (.unknownEncoding unk) := by
      simp [decodeStep, h1, h2, h3, h4]
    subst hd
    simp only [List.nil_append] at henc
    simp only [List.nil_append, decodeLoopRev, hstep]
    rw [← henc]
  | t :: ts, cipher, m, unk, revPre, d', henc, hrun, h1, h2, h3, h4 => by
    simp only [runTokens] at hrun
    rcases hs : decodeStep cipher t m.data with e | d1
    · rw [hs] at hrun
      exact absurd hrun (by simp)
    · rw [hs] at hrun
      have ih := decodeLoopRev_unknown ts cipher
        { m with data := d1, encoding := joinSlash ((ts ++ unk :: revPre).reverse) }
        unk revPre d' rfl (by simpa using hrun) h1 h2 h3 h4
      simp only [List.cons_append, decodeLoopRev, hs]
      exact ih

/-- C6: for every message whose (nonempty) encoding chain contains a token
that is none of `base64`, `utf-8`, `json`, or `cipher`-prefixed, and whose
payload is present and decodes under the tokens to the right of that token,
`withDecodedData` returns the unknown-encoding error together with a message
retaining the partially decoded payload and the unprocessed prefix of the
chain, ending in the unknown token. -/
theorem C6_unknown_token (m : Message) (cipher : Option ChannelCipher)
    (revPost revPre : List GoStr) (unk : GoStr) (d' : Option GoValue)
    (hdata : m.data ≠ none) (henc : m.encoding ≠ [])
    (hsplit : (splitOnSlash m.encoding).reverse = revPost ++ unk :: revPre)
    (h1 : unk ≠ encBase64) (h2 : unk ≠ encUTF8) (h3 : unk ≠ encJSON)
    (h4 : ¬encCipher.isPrefixOf unk)
    (hrun : runTokens cipher revPost m.data = .ok d') :
    withDecodedData m cipher =
      ({ m with data := d', encoding := joinSlash ((unk :: revPre).reverse) },
        some (.unknownEncoding unk)) := by
  have hjoin : m.encoding = joinSlash ((revPost ++ unk :: revPre).reverse) := by
    have h := joinSlash_splitOnSlash m.encoding
    rw [← h]
    congr 1
    rw [← hsplit, List.reverse_reverse]
  rw [withDecodedData, if_neg (by simp [hdata, henc]), hsplit]
  exact decodeLoopRev_unknown revPost cipher m unk revPre d' hjoin hrun h1 h2 h3 h4

/-- Witness for C6: decoding `zip/base64`-encoded data processes the `base64`
token, then stops at the unknown token `zip`, keeping the decoded bytes and
the chain prefix `zip`. -/
theorem C6_witness :
    withDecodedData { data := some (.vstr (b64Encode [104])), encoding := gs "zip/base64" }
      none =
      ({ data := some (.vbytes [104]), encoding := gs "zip" },
        some (.unknownEncoding (gs "zip"))) := by
  have h := C6_unknown_token
    { data := some (.vstr (b64Encode [104])), encoding := gs "zip/base64" } none
    [encBase64] [] (gs "zip") (some (.vbytes [104]))
    (by decide) (by decide) (by decide) (by decide) (by decide) (by decide) (by decide)
    (by decide)
  simpa using h

/-! ### Claim C1: encode-then-decode round trip -/

theorem byteOk_of_ascii (l : List Nat) (h : ∀ c ∈ l, c < 128) : byteOk l = true := by
  simp only [byteOk, List.all_eq_true, decide_eq_true_eq]
  intro c hc
  exact lt_trans (h c hc) (by omega)

theorem byteOk_b64Encode (bs : List Nat) : byteOk (b64Encode bs) = true :=
  byteOk_of_ascii _ (b64Encode_ascii bs)

theorem byteOk_jsonMarshal (v : Jv) (h : jvWf v = true) : byteOk (jsonMarshal v) = true :=
  byteOk_of_ascii _ (jsonMarshal_ascii v h)

/-- A `cipher`-prefixed algorithm token is none of the three fixed tokens. -/
theorem cipherAlg_ne_tokens (t : GoStr) :
    encCipher ++ t ≠ encBase64 ∧ encCipher ++ t ≠ encUTF8 ∧ encCipher ++ t ≠ encJSON := by
  refine ⟨fun h => ?_, fun h => ?_, fun h => ?_⟩ <;>
  · have h1 : (encCipher ++ t).head? = some 'c' := rfl
    rw [h] at h1
    exact absurd h1 (by decide)

/-- Splitting a three-token chain of slash-free tokens. -/
theorem splitChain3 (a b c' : GoStr) (ha : '/' ∉ a) (hb : '/' ∉ b) (hc : '/' ∉ c') :
    splitOnSlash (a ++ '/' :: (b ++ '/' :: c')) = [a, b, c'] := by
  rw [splitOnSlash_append a _ ha, splitOnSlash_append b _ hb, splitOnSlash_no_slash c' hc]

/-- Splitting a four-token chain of slash-free tokens. -/
theorem splitChain4 (a b c' d : GoStr) (ha : '/' ∉ a) (hb : '/' ∉ b) (hc : '/' ∉ c')
    (hd : '/' ∉ d) :
    splitOnSlash (a ++ '/' :: (b ++ '/' :: (c' ++ '/' :: d))) = [a, b, c', d] := by
  rw [splitOnSlash_append a _ ha, splitOnSlash_append b _ hb, splitOnSlash_append c' _ hc,
    splitOnSlash_no_slash d hd]

/-- The first two decode steps of any cipher-produced chain: the outer base64
is undone, then the ciphertext is decrypted back to the plain bytes. -/
theorem decodeLoopRev_cipher_steps (c : ChannelCipher) (hc : ValidCipher c)
    (plain e : List Nat) (hpl : byteOk plain = true) (henc : c.encrypt plain = some e)
    (revRest : List GoStr) (m : Message)
    (hm : m.data = some (.vstr (b64Encode e))) :
    decodeLoopRev (some c) (encBase64 :: c.algorithm :: revRest) m =
      decodeLoopRev (some c) revRest
        { m with data := some (.vbytes plain),
                 encoding := joinSlash revRest.reverse } := by
  obtain ⟨htot, hbytes, hinv, hpre, hslash⟩ := hc
  obtain ⟨t, ht⟩ := List.isPrefixOf_iff_prefix.mp hpre
  obtain ⟨hne1, hne2, hne3⟩ := ht ▸ cipherAlg_ne_tokens t
  have he : byteOk e = true := hbytes plain e hpl henc
  have hdec : c.decrypt e = some plain := hinv plain e henc
  have hs1 : decodeStep (some c) encBase64 m.data = .ok (some (.vbytes e)) := by
    simp [decodeStep, hm, coerceString, b64Decode_b64Encode e he]
  have hs2 : decodeStep (some c) c.algorithm (some (.vbytes e)) =
      .ok (some (.vbytes plain)) := by
    simp [decodeStep, hne1, hne2, hne3, hpre, coerceBytes, hdec]
  simp only [decodeLoopRev, hs1, hs2]

/-- C1 (amended): for every fresh message (empty encoding chain) whose data
is a valid-UTF-8 text string, a byte string, a JSON object or a JSON array,
and every valid cipher including none, decoding the result of encoding the
message with that cipher restores the original data, with no error.  (A text
string that is not valid UTF-8 is excluded: it is reclassified as bytes by
the encoder and decodes to the equivalent byte string, not to the original
string value — see the counterexample.) -/
theorem C1_encode_decode_roundtrip (m : Message) (cipher : Option ChannelCipher)
    (henc0 : m.encoding = []) (hdata : dataOk m.data = true) (hcip : CipherOk cipher) :
    ∃ m2, withEncodedData m cipher = .ok m2 ∧
      (withDecodedData m2 cipher).1.data = m.data ∧
      (withDecodedData m2 cipher).2 = none := by
  cases cipher with
  | none =>
    rcases hd : m.data with - | gv
    · rw [hd] at hdata
      simp [dataOk] at hdata
    rcases gv with bs | bs | v
    · -- valid UTF-8 string: encode and decode are both the identity
      have hb : byteOk bs = true ∧ validUtf8 bs = true := by
        rw [hd] at hdata
        simpa [dataOk, Bool.and_eq_true] using hdata
      refine ⟨m, ?_, ?_, ?_⟩
      · simp [withEncodedData, hd, hb.2]
        rw [← hd]
      · simp [withDecodedData, henc0, hd]
      · simp [withDecodedData, henc0]
    · -- byte string: base64 text, chain `base64`
      have hb : byteOk bs = true := by
        rw [hd] at hdata
        simpa [dataOk] using hdata
      refine ⟨{ m with data := some (.vstr (b64Encode bs)), encoding := encBase64 }, ?_, ?_, ?_⟩
      · simp [withEncodedData, hd, henc0, mergeEncoding]
      all_goals
        have hs : decodeStep none ['b', 'a', 's', 'e', '6', '4']
            (some (.vstr (b64Encode bs))) = .ok (some (.vbytes bs)) := by
          show decodeStep none encBase64 (some (.vstr (b64Encode bs))) =
            .ok (some (.vbytes bs))
          simp [decodeStep, coerceString, b64Decode_b64Encode bs hb]
        rw [withDecodedData]
        rw [if_neg (by simp [(by decide : encBase64 ≠ [])])]
        simp [splitOnSlash_no_slash encBase64 (by decide), decodeLoopRev, hs, hd, joinSlash,
          encBase64, gs]
    · -- JSON object or array: marshaled text, chain `json`
      have hwf : jvWf v = true ∧ ((jsonMarshal v).head? = some 91 ∨
          (jsonMarshal v).head? = some 123) := by
        rw [hd] at hdata
        rcases v with - | b | n | s | xs | fs <;> simp [dataOk] at hdata
        · exact ⟨by simpa [jvWf] using hdata, by cases xs <;> simp [jsonMarshal]⟩
        · exact ⟨by simpa [jvWf] using hdata, by cases fs <;> simp [jsonMarshal]⟩
      have hgo : goOfJv v = some (.vjson v) := by
        rw [hd] at hdata
        rcases v with - | b | n | s | xs | fs <;> simp [dataOk] at hdata <;> rfl
      refine ⟨{ m with data := some (.vstr (jsonMarshal v)), encoding := encJSON }, ?_, ?_, ?_⟩
      · simp [withEncodedData, hd, henc0, hwf.2, mergeEncoding]
      all_goals
        have hs : decodeStep none ['j', 's', 'o', 'n'] (some (.vstr (jsonMarshal v))) =
            .ok (goOfJv v) := by
          show decodeStep none encJSON (some (.vstr (jsonMarshal v))) = .ok (goOfJv v)
          simp [decodeStep, coerceBytes, jsonUnmarshal_jsonMarshal v hwf.1,
            (by decide : encJSON ≠ encBase64), (by decide : encJSON ≠ encUTF8)]
        rw [withDecodedData]
        rw [if_neg (by simp [(by decide : encJSON ≠ [])])]
        simp [splitOnSlash_no_slash encJSON (by decide), decodeLoopRev, hs, hgo, hd, joinSlash,
          encJSON, gs]
  | some c =>
    obtain ⟨htot, hbytes, hinv, hpre, hslash⟩ := hcip
    obtain ⟨t, ht⟩ := List.isPrefixOf_iff_prefix.mp hpre
    obtain ⟨hne1, hne2, hne3⟩ := ht ▸ cipherAlg_ne_tokens t
    have hvc : ValidCipher c := ⟨htot, hbytes, hinv, hpre, hslash⟩
    have hsU : ∀ bs : List Nat, decodeStep (some c) ['u', 't', 'f', '-', '8']
        (some (.vbytes bs)) = .ok (some (.vstr bs)) := by
      intro bs
      show decodeStep (some c) encUTF8 (some (.vbytes bs)) = .ok (some (.vstr bs))
      simp [decodeStep, coerceString, (by decide : encUTF8 ≠ encBase64)]
    rcases hd : m.data with - | gv
    · rw [hd] at hdata
      simp [dataOk] at hdata
    rcases gv with bs | bs | v
    · -- valid UTF-8 string under a cipher: chain `utf-8/<alg>/base64`
      have hb : byteOk bs = true ∧ validUtf8 bs = true := by
        rw [hd] at hdata
        simpa [dataOk, Bool.and_eq_true] using hdata
      obtain ⟨e, he⟩ := Option.isSome_iff_exists.mp (htot bs)
      refine ⟨{ m with data := some (.vstr (b64Encode e)),
                       encoding := encUTF8 ++ '/' :: (c.algorithm ++ '/' :: encBase64) },
        ?_, ?_, ?_⟩
      · simp [withEncodedData, hd, hb.2, henc0, he, coerceBytes, mergeEncoding,
          (by decide : (encUTF8 : GoStr) ≠ [])]
      all_goals
        have hsplit : splitOnSlash (encUTF8 ++ '/' :: (c.algorithm ++ '/' :: encBase64)) =
            [encUTF8, c.algorithm, encBase64] :=
          splitChain3 _ _ _ (by decide) hslash (by decide)
        have hsteps := decodeLoopRev_cipher_steps c hvc bs e hb.1 he [encUTF8]
          { m with data := some (.vstr (b64Encode e)),
                   encoding := encUTF8 ++ '/' :: (c.algorithm ++ '/' :: encBase64) } rfl
        rw [withDecodedData]
        rw [if_neg (by simp)]
        simp only [hsplit, List.reverse_cons, List.reverse_nil, List.nil_append,
          List.cons_append, hsteps]
        simp [decodeLoopRev, hsU bs, hd, joinSlash, encUTF8, gs]
    · -- byte string under a cipher: chain `base64/utf-8/<alg>/base64`
      have hb : byteOk bs = true := by
        rw [hd] at hdata
        simpa [dataOk] using hdata
      obtain ⟨e, he⟩ := Option.isSome_iff_exists.mp (htot (b64Encode bs))
      refine ⟨{ m with data := some (.vstr (b64Encode e)),
                       encoding := encBase64 ++ '/' ::
                         (encUTF8 ++ '/' :: (c.algorithm ++ '/' :: encBase64)) },
        ?_, ?_, ?_⟩
      · simp [withEncodedData, hd, henc0, he, coerceBytes, mergeEncoding,
          validUtf8_b64Encode, (by decide : (encUTF8 : GoStr) ≠ []),
          (by decide : (encBase64 : GoStr) ≠ [])]
      all_goals
        have hsplit : splitOnSlash (encBase64 ++ '/' ::
            (encUTF8 ++ '/' :: (c.algorithm ++ '/' :: encBase64))) =
            [encBase64, encUTF8, c.algorithm, encBase64] :=
          splitChain4 _ _ _ _ (by decide) (by decide) hslash (by decide)
        have hsteps := decodeLoopRev_cipher_steps c hvc (b64Encode bs) e
          (byteOk_b64Encode bs) he [encUTF8, encBase64]
          { m with data := some (.vstr (b64Encode e)),
                   encoding := encBase64 ++ '/' ::
                     (encUTF8 ++ '/' :: (c.algorithm ++ '/' :: encBase64)) } rfl
        have hsB : decodeStep (some c) ['b', 'a', 's', 'e', '6', '4']
            (some (.vstr (b64Encode bs))) = .ok (some (.vbytes bs)) := by
          show decodeStep (some c) encBase64 (some (.vstr (b64Encode bs))) =
            .ok (some (.vbytes bs))
          simp [decodeStep, coerceString, b64Decode_b64Encode bs hb]
        rw [withDecodedData]
        rw [if_neg (by simp)]
        simp only [hsplit, List.reverse_cons, List.reverse_nil, List.nil_append,
          List.cons_append, hsteps]
        simp [decodeLoopRev, hsU (b64Encode bs), hsB, hd, joinSlash, encUTF8, encBase64, gs]
    · -- JSON object or array under a cipher: chain `json/utf-8/<alg>/base64`
      have hwf : jvWf v = true ∧ ((jsonMarshal v).head? = some 91 ∨
          (jsonMarshal v).head? = some 123) := by
        rw [hd] at hdata
        rcases v with - | b | n | s | xs | fs <;> simp [dataOk] at hdata
        · exact ⟨by simpa [jvWf] using hdata, by cases xs <;> simp [jsonMarshal]⟩
        · exact ⟨by simpa [jvWf] using hdata, by cases fs <;> simp [jsonMarshal]⟩
      have hgo : goOfJv v = some (.vjson v) := by
        rw [hd] at hdata
        rcases v with - | b | n | s | xs | fs <;> simp [dataOk] at hdata <;> rfl
      obtain ⟨e, he⟩ := Option.isSome_iff_exists.mp (htot (jsonMarshal v))
      refine ⟨{ m with data := some (.vstr (b64Encode e)),
                       encoding := encJSON ++ '/' ::
                         (encUTF8 ++ '/' :: (c.algorithm ++ '/' :: encBase64)) },
        ?_, ?_, ?_⟩
      · simp [withEncodedData, hd, henc0, hwf.2, he, coerceBytes, mergeEncoding,
          validUtf8_jsonMarshal v hwf.1, (by decide : (encUTF8 : GoStr) ≠ []),
          (by decide : (encJSON : GoStr) ≠ [])]
      all_goals
        have hsplit : splitOnSlash (encJSON ++ '/' ::
            (encUTF8 ++ '/' :: (c.algorithm ++ '/' :: encBase64))) =
            [encJSON, encUTF8, c.algorithm, encBase64] :=
          splitChain4 _ _ _ _ (by decide) (by decide) hslash (by decide)
        have hsteps := decodeLoopRev_cipher_steps c hvc (jsonMarshal v) e
          (byteOk_jsonMarshal v hwf.1) he [encUTF8, encJSON]
          { m with data := some (.vstr (b64Encode e)),
                   encoding := encJSON ++ '/' ::
                     (encUTF8 ++ '/' :: (c.algorithm ++ '/' :: encBase64)) } rfl
        have hsJ : decodeStep (some c) ['j', 's', 'o', 'n'] (some (.vstr (jsonMarshal v))) =
            .ok (goOfJv v) := by
          show decodeStep (some c) encJSON (some (.vstr (jsonMarshal v))) = .ok (goOfJv v)
          simp [decodeStep, coerceBytes, jsonUnmarshal_jsonMarshal v hwf.1,
            (by decide : encJSON ≠ encBase64), (by decide : encJSON ≠ encUTF8)]
        rw [withDecodedData]
        rw [if_neg (by simp)]
        simp only [hsplit, List.reverse_cons, List.reverse_nil, List.nil_append,
          List.cons_append, hsteps]
        simp [decodeLoopRev, hsU (jsonMarshal v), hsJ, hgo, hd, joinSlash, encUTF8, encJSON,
          gs]

/-- Counterexample to C1 as literally stated: a string payload that is not
valid UTF-8 (the single byte 255) is reclassified by the encoder as a byte
payload; decoding returns the bytes, not the original string value. -/
theorem C1_counterexample :
    withEncodedData { data := some (.vstr [255]) } none =
      .ok { data := some (.vstr [47, 119, 61, 61]), encoding := gs "base64" } ∧
    withDecodedData { data := some (.vstr [47, 119, 61, 61]), encoding := gs "base64" }
      none = ({ data := some (.vbytes [255]) }, none) ∧
    some (GoValue.vbytes [255]) ≠ some (GoValue.vstr [255]) := by
  decide

/-- Witness for C1: a byte payload encrypted with a concrete identity cipher
round-trips: encoding succeeds and decoding restores the bytes with no error. -/
theorem C1_witness :
    ∃ m2, withEncodedData { data := some (GoValue.vbytes [7, 8]) }
        (some ⟨fun bs => some bs, fun bs => some bs, gs "cipher+x"⟩) = .ok m2 ∧
      (withDecodedData m2 (some ⟨fun bs => some bs, fun bs => some bs, gs "cipher+x"⟩)).1.data
        = some (GoValue.vbytes [7, 8]) ∧
      (withDecodedData m2 (some ⟨fun bs => some bs, fun bs => some bs, gs "cipher+x"⟩)).2
        = none :=
  C1_encode_decode_roundtrip { data := some (.vbytes [7, 8]) }
    (some ⟨fun bs => some bs, fun bs => some bs, gs "cipher+x"⟩) rfl (by decide)
    ⟨fun _ => rfl,
     fun bs e hb he => by injection he with h; exact h ▸ hb,
     fun bs e he => by injection he with h; rw [← h],
     by decide, by decide⟩

/-! ### Claims C2, C3, C4: the pending-ack queue -/

/-- Membership in `insertAt`: the inserted element or an original one. -/
theorem mem_insertAt (x e : MsgCh) : ∀ (i : Nat) (l : List MsgCh),
    e ∈ insertAt i x l ↔ e = x ∨ e ∈ l
  | 0, l => by simp [insertAt]
  | _ + 1, [] => by simp [insertAt]
  | i + 1, a :: l => by
    simp only [insertAt, List.mem_cons, mem_insertAt x e i l]
    tauto

/-- `insertAt` keeps a queue sorted when the new entry fits at position `i`. -/
theorem pairwise_insertAt (x : MsgCh) : ∀ (i : Nat) (l : List MsgCh),
    l.Pairwise serialLt → (∀ e ∈ l.take i, serialLt e x) →
    (∀ e ∈ l.drop i, serialLt x e) → (insertAt i x l).Pairwise serialLt
  | 0, l, hp, _, hd => by
    rw [insertAt]
    exact List.pairwise_cons.mpr ⟨by simpa using hd, hp⟩
  | _ + 1, [], _, _, _ => by simp [insertAt]
  | i + 1, a :: l, hp, ht, hd => by
    rw [insertAt]
    rw [List.pairwise_cons] at hp ⊢
    refine ⟨?_, pairwise_insertAt x i l hp.2 ?_ ?_⟩
    · intro e he
      rcases (mem_insertAt x e i l).mp he with rfl | he
      · exact ht a (by simp)
      · exact hp.1 e he
    · intro e he
      exact ht e (by simp [he])
    · intro e he
      exact hd e (by simpa using he)

/-- `findIdx` is at most any index where the predicate holds. -/
theorem findIdx_le_of_pred_true {p : MsgCh → Bool} {q : List MsgCh} {i : Nat}
    (hi : i < q.length) (h : p q[i] = true) : q.findIdx p ≤ i := by
  by_contra hc
  push_neg at hc
  rw [List.not_of_lt_findIdx hc] at h
  exact absurd h (by simp)

/-- On a strictly sorted queue, serials grow at least as fast as indices. -/
theorem pairwise_serial_ge (q : List MsgCh) (hs : q.Pairwise serialLt) (i j : Nat)
    (hij : i ≤ j) : ∀ hj : j < q.length,
    q[i].msg.msgSerial + ((j - i : Nat) : Int) ≤ q[j].msg.msgSerial := by
  induction j, hij using Nat.le_induction with
  | base => intro hj; simp
  | succ j hij ih =>
    intro hj
    have hj' : j < q.length := by omega
    have h1 := ih hj'
    have h2 := List.pairwise_iff_getElem.mp hs j (j + 1) hj' hj (by omega)
    simp only [serialLt] at h2
    have hc : ((j + 1 - i : Nat) : Int) = ((j - i : Nat) : Int) + 1 := by omega
    rw [hc]
    omega

/-- When the ACK serial occurs in a sorted queue, the binary search lands on
exactly that entry. -/
theorem pendingSearch_matched (q : List MsgCh) (msg : ProtoMsg)
    (hs : q.Pairwise serialLt) (hmem : ∃ e ∈ q, e.msg.msgSerial = msg.msgSerial) :
    ∃ h : pendingSearch q msg < q.length,
      q[pendingSearch q msg].msg.msgSerial = msg.msgSerial := by
  obtain ⟨e, he, hser⟩ := hmem
  obtain ⟨k, hk, rfl⟩ := List.mem_iff_getElem.mp he
  have hik : pendingSearch q msg ≤ k :=
    findIdx_le_of_pred_true hk (by simp [hser])
  have hlt : pendingSearch q msg < q.length := lt_of_le_of_lt hik hk
  refine ⟨hlt, ?_⟩
  have h1 : msg.msgSerial ≤ q[pendingSearch q msg].msg.msgSerial := by
    have h0 : List.findIdx (fun e : MsgCh => decide (msg.msgSerial ≤ e.msg.msgSerial)) q <
        q.length := hlt
    exact of_decide_eq_true (List.findIdx_getElem (w := h0))
  rcases eq_or_lt_of_le hik with heq | hlt2
  · simp only [heq]
    exact hser
  · have h2 := List.pairwise_iff_getElem.mp hs _ k hlt hk hlt2
    simp only [serialLt] at h2
    omega

/-- Entries with serial below the searched one sit strictly before the
search position. -/
theorem lt_pendingSearch_of_serial_lt (q : List MsgCh) (msg : ProtoMsg)
    (hs : q.Pairwise serialLt) (j : Nat) (hj : j < q.length)
    (hlt : q[j].msg.msgSerial < msg.msgSerial) : j < pendingSearch q msg := by
  by_contra hc
  push_neg at hc
  have hilen : pendingSearch q msg < q.length := lt_of_le_of_lt hc hj
  have h1 : msg.msgSerial ≤ q[pendingSearch q msg].msg.msgSerial := by
    have h0 : List.findIdx (fun e : MsgCh => decide (msg.msgSerial ≤ e.msg.msgSerial)) q <
        q.length := hilen
    exact of_decide_eq_true (List.findIdx_getElem (w := h0))
  rcases eq_or_lt_of_le hc with heq | hlt2
  · simp only [heq] at h1
    omega
  · have h2 := List.pairwise_iff_getElem.mp hs _ j hilen hj hlt2
    simp only [serialLt] at h2
    omega

/-- `Enqueue` of a serial already present leaves a sorted queue unchanged. -/
theorem pendingEnqueue_duplicate (q : List MsgCh) (msg : ProtoMsg) (ch : Nat)
    (hs : q.Pairwise serialLt) (hmem : ∃ e ∈ q, e.msg.msgSerial = msg.msgSerial) :
    pendingEnqueue q msg ch = q := by
  obtain ⟨hlt, heq⟩ := pendingSearch_matched q msg hs hmem
  have hgetD : (q.getD (pendingSearch q msg) ⟨⟨0, 0⟩, 0⟩).msg.msgSerial = msg.msgSerial := by
    rw [List.getD_eq_getElem _ _ hlt]
    exact heq
  simp only [pendingEnqueue]
  rw [if_neg (by omega), if_pos hgetD]

/-- `Enqueue` preserves strict sortedness of the queue. -/
theorem pendingEnqueue_pairwise (q : List MsgCh) (msg : ProtoMsg) (ch : Nat)
    (hs : q.Pairwise serialLt) : (pendingEnqueue q msg ch).Pairwise serialLt := by
  simp only [pendingEnqueue]
  split
  · rename_i hlen
    rw [List.pairwise_append]
    refine ⟨hs, by simp, ?_⟩
    intro a ha b hb
    simp only [List.mem_singleton] at hb
    subst hb
    obtain ⟨ia, hia, rfl⟩ := List.mem_iff_getElem.mp ha
    have h1 := List.not_of_lt_findIdx
      (p := fun e : MsgCh => decide (msg.msgSerial ≤ e.msg.msgSerial)) (hlen ▸ hia)
    simp only [decide_eq_false_iff_not, not_le] at h1
    exact h1
  · split
    · exact hs
    · rename_i hlen hne
      have hle : pendingSearch q msg ≤ q.length :=
        List.findIdx_le_length (p := fun e : MsgCh => decide (msg.msgSerial ≤ e.msg.msgSerial))
      have hlt : pendingSearch q msg < q.length := by omega
      have hge : msg.msgSerial ≤ q[pendingSearch q msg].msg.msgSerial := by
        have h0 : List.findIdx (fun e : MsgCh => decide (msg.msgSerial ≤ e.msg.msgSerial)) q <
            q.length := hlt
        exact of_decide_eq_true (List.findIdx_getElem (w := h0))
      have hne' : q[pendingSearch q msg].msg.msgSerial ≠ msg.msgSerial := by
        rw [List.getD_eq_getElem _ _ hlt] at hne
        exact hne
      refine pairwise_insertAt _ _ _ hs ?_ ?_
      · intro e he
        obtain ⟨j, hj, rfl⟩ := List.mem_iff_getElem.mp he
        have hjq : j < q.length := by
          simp only [List.length_take] at hj
          omega
        have hji : j < pendingSearch q msg := by
          simp only [List.length_take] at hj
          omega
        have h1 := List.not_of_lt_findIdx
          (show j < List.findIdx (fun e : MsgCh =>
            decide (msg.msgSerial ≤ e.msg.msgSerial)) q from hji)
        simp only [decide_eq_false_iff_not, not_le] at h1
        rw [List.getElem_take q]
        exact h1
      · intro e he
        obtain ⟨j, hj, rfl⟩ := List.mem_iff_getElem.mp he
        have hlen2 : pendingSearch q msg + j < q.length := by
          simp only [List.length_drop] at hj
          omega
        rw [List.getElem_drop q]
        rcases Nat.eq_zero_or_pos j with rfl | hj0
        · simp only [Nat.add_zero]
          exact lt_of_le_of_ne hge (Ne.symm hne')
        · have h2 := List.pairwise_iff_getElem.mp hs (pendingSearch q msg)
            (pendingSearch q msg + j) hlt hlen2 (by omega)
          simp only [serialLt] at h2 ⊢
          omega

/-- The queue an `Ack` leaves behind is a suffix of the original queue. -/
theorem pendingAck_fst (q : List MsgCh) (msg : ProtoMsg) (e : Option Nat)
    (q' : List MsgCh) (h : (pendingAck q msg e).1 = some q') : ∃ n, q' = q.drop n := by
  simp only [pendingAck] at h
  repeat' split at h
  all_goals first
    | exact ⟨0, by simpa using (Option.some.inj h).symm⟩
    | (exfalso; simpa using h)
    | exact ⟨_, by simpa using (Option.some.inj h).symm⟩

/-- The queue a `Nack` leaves behind is a suffix of the original queue. -/
theorem pendingNack_fst (q : List MsgCh) (msg : ProtoMsg) (e : Option Nat)
    (q' : List MsgCh) (h : (pendingNack q msg e).1 = some q') : ∃ n, q' = q.drop n := by
  simp only [pendingNack] at h
  repeat' split at h
  all_goals first
    | exact ⟨0, by simpa using (Option.some.inj h).symm⟩
    | (exfalso; simpa using h)
    | exact ⟨_, by simpa using (Option.some.inj h).symm⟩
    | exact ⟨q.length, by rw [List.drop_length]; simpa using (Option.some.inj h).symm⟩

/-- Every single queue operation preserves strict sortedness. -/
theorem queueStep_pairwise (q : List MsgCh) (op : QueueOp)
    (hs : q.Pairwise serialLt) : (queueStep q op).Pairwise serialLt := by
  cases op with
  | enq msg ch => exact pendingEnqueue_pairwise q msg ch hs
  | ack msg e =>
    rw [queueStep]
    rcases h : (pendingAck q msg e).1 with - | q'
    · simpa using hs
    · obtain ⟨n, rfl⟩ := pendingAck_fst q msg e q' h
      simpa using hs.sublist (List.drop_sublist n q)
  | nack msg e =>
    rw [queueStep]
    rcases h : (pendingNack q msg e).1 with - | q'
    · simpa using hs
    · obtain ⟨n, rfl⟩ := pendingNack_fst q msg e q' h
      simpa using hs.sublist (List.drop_sublist n q)

/-- Sortedness of the queue after any operation sequence, generalized. -/
theorem foldl_queueStep_pairwise (ops : List QueueOp) :
    ∀ q : List MsgCh, q.Pairwise serialLt → (ops.foldl queueStep q).Pairwise serialLt := by
  induction ops with
  | nil => intro q hq; simpa using hq
  | cons op ops ih =>
    intro q hq
    exact ih (queueStep q op) (queueStep_pairwise q op hq)

/-- C4: starting from the empty queue, after every sequence of Enqueue, Ack
and Nack operations the pending-ack queue is sorted with strictly increasing
`msgSerial` (hence at most one entry per serial), and an Enqueue whose serial
already occurs in the queue leaves the queue unchanged. -/
theorem C4_queue_invariant (ops : List QueueOp) :
    (runQueueOps ops).Pairwise serialLt ∧
    ∀ msg ch, (∃ e ∈ runQueueOps ops, e.msg.msgSerial = msg.msgSerial) →
      pendingEnqueue (runQueueOps ops) msg ch = runQueueOps ops := by
  have hp : (runQueueOps ops).Pairwise serialLt :=
    foldl_queueStep_pairwise ops [] (by simp)
  exact ⟨hp, fun msg ch hmem => pendingEnqueue_duplicate _ msg ch hp hmem⟩

/-- Witness for C4: enqueueing serials 2 then 1 yields a sorted queue, and
re-enqueueing serial 2 on a fresh channel leaves it unchanged. -/
theorem C4_witness :
    (runQueueOps [.enq ⟨2, 0⟩ 5, .enq ⟨1, 0⟩ 6]).Pairwise serialLt ∧
    pendingEnqueue (runQueueOps [.enq ⟨2, 0⟩ 5, .enq ⟨1, 0⟩ 6]) ⟨2, 3⟩ 7 =
      runQueueOps [.enq ⟨2, 0⟩ 5, .enq ⟨1, 0⟩ 6] := by
  obtain ⟨h1, h2⟩ := C4_queue_invariant [.enq ⟨2, 0⟩ 5, .enq ⟨1, 0⟩ 6]
  exact ⟨h1, h2 ⟨2, 3⟩ 7 ⟨⟨⟨2, 0⟩, 5⟩, by decide, rfl⟩⟩

/-- C3 (amended): on a sorted pending-ack queue, every queued entry with
serial strictly below the ACK serial is completed with the distinguished
"serial skipped" error when the ACK carries no error, but with the ACK's own
error when it carries one — not with "serial skipped" unconditionally as the
claim states (see the counterexample). -/
theorem C3_pre_serial_entries (q : List MsgCh) (msg : ProtoMsg) (errInfo : Option Nat)
    (hs : q.Pairwise serialLt) :
    ∀ e ∈ q, e.msg.msgSerial < msg.msgSerial →
      (e, some (match errInfo with
        | none => GoErr.skipped
        | some x => GoErr.info x)) ∈ (pendingAck q msg errInfo).2 := by
  intro e he hlt
  obtain ⟨j, hj, rfl⟩ := List.mem_iff_getElem.mp he
  have hji : j < pendingSearch q msg := lt_pendingSearch_of_serial_lt q msg hs j hj hlt
  have hile : pendingSearch q msg ≤ q.length :=
    List.findIdx_le_length (p := fun e : MsgCh => decide (msg.msgSerial ≤ e.msg.msgSerial))
  cases errInfo
  all_goals
    simp only [pendingAck]
    rw [if_neg (by omega)]
    set i := pendingSearch q msg with hidef
    set nack : Nat := if i = q.length then q.length
      else if (q.getD i ⟨⟨0, 0⟩, 0⟩).msg.msgSerial = msg.msgSerial then i else i + 1
      with hnackdef
    have hjn : j < nack := by
      rw [hnackdef]
      split
      · omega
      · split <;> omega
    have hmemtake : q[j] ∈ q.take nack :=
      List.mem_iff_getElem.mpr ⟨j, by simp [List.length_take]; omega, List.getElem_take q⟩
    simp only [unwrapNil]
    repeat' split
  all_goals first
    | (exfalso; omega)
    | exact List.mem_append_left _ (List.mem_map.mpr ⟨q[j], hmemtake, rfl⟩)
    | exact List.mem_map.mpr ⟨q[j], hmemtake, rfl⟩

/-- C2 (amended): on a sorted pending-ack queue, for an ACK whose serial
matches a queued serial and whose count is positive, no panic occurs and
every queued entry with serial in `[serial, serial+count)` is completed with
the nil error — even when the ACK carries an error, contrary to the claim's
second half (see the counterexample); the ACK's error only reaches entries
before the acknowledged range. -/
theorem C2_ack_range (q : List MsgCh) (msg : ProtoMsg) (errInfo : Option Nat)
    (hs : q.Pairwise serialLt)
    (hmem : ∃ e ∈ q, e.msg.msgSerial = msg.msgSerial) (hcount : 0 < msg.count) :
    ((pendingAck q msg errInfo).1).isSome = true ∧
    ∀ e ∈ q, msg.msgSerial ≤ e.msg.msgSerial →
      e.msg.msgSerial < msg.msgSerial + msg.count →
      (e, (none : Option GoErr)) ∈ (pendingAck q msg errInfo).2 := by
  obtain ⟨hlt, heq⟩ := pendingSearch_matched q msg hs hmem
  have hgetD : (q.getD (pendingSearch q msg) ⟨⟨0, 0⟩, 0⟩).msg.msgSerial = msg.msgSerial := by
    rw [List.getD_eq_getElem _ _ hlt]
    exact heq
  have hc0 : (q.length = 0) = False := eq_false (by omega)
  have hc1 : (pendingSearch q msg = q.length) = False := eq_false (by omega)
  have hc2 : ((q.getD (pendingSearch q msg) ⟨⟨0, 0⟩, 0⟩).msg.msgSerial = msg.msgSerial) =
      True := eq_true hgetD
  have hc3 : (min ((pendingSearch q msg : Int) + msg.count) (q.length : Int) <
      ((pendingSearch q msg : Nat) : Int)) = False := eq_false (by omega)
  constructor
  · simp only [pendingAck, hc0, hc1, hc2, if_false, if_true, hc3]
    rfl
  · intro e he h1 h2
    obtain ⟨j, hj, rfl⟩ := List.mem_iff_getElem.mp he
    have hij : pendingSearch q msg ≤ j :=
      findIdx_le_of_pred_true hj (by simp [h1])
    have hser0 := pairwise_serial_ge q hs (pendingSearch q msg) j hij hj
    have hser : msg.msgSerial + ((j - pendingSearch q msg : Nat) : Int) ≤
        q[j].msg.msgSerial := by
      rw [← heq]
      exact hser0
    simp only [pendingAck, hc0, hc1, hc2, if_false, if_true, hc3]
    set A : Nat := (min ((pendingSearch q msg : Int) + msg.count) (q.length : Int)).toNat
      with hAdef
    have hjA : j < A := by
      have : ((j - pendingSearch q msg : Nat) : Int) = (j : Int) - pendingSearch q msg := by
        omega
      rw [hAdef]
      omega
    have hAlen : A ≤ q.length := by
      rw [hAdef]
      omega
    have hb : j - pendingSearch q msg < ((q.take A).drop (pendingSearch q msg)).length := by
      simp only [List.length_drop, List.length_take]
      omega
    have hb2 : pendingSearch q msg + (j - pendingSearch q msg) < (q.take A).length := by
      simp only [List.length_take]
      omega
    have hb3 : pendingSearch q msg + (j - pendingSearch q msg) < q.length := by
      omega
    have e1 : ((q.take A).drop (pendingSearch q msg))[j - pendingSearch q msg] =
        (q.take A)[pendingSearch q msg + (j - pendingSearch q msg)] :=
      List.getElem_drop _
    have e2 : (q.take A)[pendingSearch q msg + (j - pendingSearch q msg)] =
        q[pendingSearch q msg + (j - pendingSearch q msg)] :=
      List.getElem_take q
    have e3 : q[pendingSearch q msg + (j - pendingSearch q msg)] = q[j] := by
      congr 1
      omega
    refine List.mem_append_right _ (List.mem_map.mpr ⟨q[j], ?_, rfl⟩)
    exact List.mem_iff_getElem.mpr ⟨j - pendingSearch q msg, hb, e1.trans (e2.trans e3)⟩

/-- Counterexample to C2 as stated: an ACK of serial 0, count 1 carrying
error 7 completes the in-range entry with nil, not with the carried error. -/
theorem C2_counterexample :
    pendingAck [⟨⟨0, 0⟩, 0⟩] ⟨0, 1⟩ (some 7) =
      (some [], [(⟨⟨0, 0⟩, 0⟩, none)]) ∧
    (none : Option GoErr) ≠ some (GoErr.info 7) := by
  decide

/-- Witness for C2: acknowledging serials 5 and 6 with count 2 completes the
entry with serial 6 with the nil error. -/
theorem C2_witness :
    ((pendingAck [⟨⟨5, 0⟩, 1⟩, ⟨⟨6, 0⟩, 2⟩] ⟨5, 2⟩ none).1).isSome = true ∧
    (⟨⟨6, 0⟩, 2⟩, (none : Option GoErr)) ∈
      (pendingAck [⟨⟨5, 0⟩, 1⟩, ⟨⟨6, 0⟩, 2⟩] ⟨5, 2⟩ none).2 := by
  obtain ⟨h1, h2⟩ := C2_ack_range [⟨⟨5, 0⟩, 1⟩, ⟨⟨6, 0⟩, 2⟩] ⟨5, 2⟩ none
    (by simp [serialLt]) ⟨⟨⟨5, 0⟩, 1⟩, by decide, rfl⟩ (by decide)
  exact ⟨h1, h2 ⟨⟨6, 0⟩, 2⟩ (by decide) (by decide) (by decide)⟩

/-- Counterexample to C3 as stated: an ACK of serial 1 carrying error 7
completes the skipped entry with serial 0 with error 7, not with the
distinguished "serial skipped" error. -/
theorem C3_counterexample :
    (⟨⟨0, 0⟩, 10⟩, some (GoErr.info 7)) ∈
      (pendingAck [⟨⟨0, 0⟩, 10⟩, ⟨⟨1, 0⟩, 11⟩] ⟨1, 1⟩ (some 7)).2 ∧
    (⟨⟨0, 0⟩, 10⟩, some GoErr.skipped) ∉
      (pendingAck [⟨⟨0, 0⟩, 10⟩, ⟨⟨1, 0⟩, 11⟩] ⟨1, 1⟩ (some 7)).2 := by
  decide

/-- Witness for C3: an error-free ACK of serial 1 completes the skipped
entry with serial 0 with the "serial skipped" error. -/
theorem C3_witness :
    (⟨⟨0, 0⟩, 10⟩, some GoErr.skipped) ∈
      (pendingAck [⟨⟨0, 0⟩, 10⟩, ⟨⟨1, 0⟩, 11⟩] ⟨1, 1⟩ none).2 :=
  C3_pre_serial_entries [⟨⟨0, 0⟩, 10⟩, ⟨⟨1, 0⟩, 11⟩] ⟨1, 1⟩ none
    (by simp [serialLt]) ⟨⟨0, 0⟩, 10⟩ (by decide) (by decide)

/-! ### Claim C7: environment host prefixing -/

/-- C7 (amended): when the environment is non-empty and differs from
`production`, and the host is unset or equal to the default, `resolveHost`
returns `{environment}-{defaultHost}`; a host different from the default is
returned unchanged.  (The claim omits the `production` exception: a
`production` environment is never prefixed — see the counterexample.) -/
theorem C7_resolveHost (host env dflt : GoStr) :
    (env ≠ [] → env ≠ gs "production" → (host = [] ∨ host = dflt) →
      resolveHost host env dflt = env ++ '-' :: dflt) ∧
    (host ≠ [] → host ≠ dflt → resolveHost host env dflt = host) := by
  constructor
  · intro h1 h2 h3
    have hh1 : (if host = [] then dflt else host) = dflt := by
      rcases h3 with rfl | rfl
      · simp
      · split <;> rfl
    simp [resolveHost, hh1, h1, h2]
  · intro h1 h2
    simp [resolveHost, h1, h2]

/-- Counterexample to C7 as stated: the environment `production` is
non-empty, yet the default host is returned without any prefix. -/
theorem C7_counterexample :
    resolveHost (gs "rest.ably.io") (gs "production") (gs "rest.ably.io") =
      gs "rest.ably.io" ∧
    gs "rest.ably.io" ≠ gs "production" ++ '-' :: gs "rest.ably.io" := by
  decide

/-- Witness for C7: the `sandbox` environment prefixes the default host, and
a custom host is returned unchanged. -/
theorem C7_witness :
    resolveHost (gs "rest.ably.io") (gs "sandbox") (gs "rest.ably.io") =
      gs "sandbox" ++ '-' :: gs "rest.ably.io" ∧
    resolveHost (gs "example.com") (gs "sandbox") (gs "rest.ably.io") =
      gs "example.com" := by
  obtain ⟨h1, -⟩ := C7_resolveHost (gs "rest.ably.io") (gs "sandbox") (gs "rest.ably.io")
  obtain ⟨-, h2⟩ := C7_resolveHost (gs "example.com") (gs "sandbox") (gs "rest.ably.io")
  exact ⟨h1 (by decide) (by decide) (Or.inr rfl), h2 (by decide) (by decide)⟩

/-! ### Claim C8: paginator link resolution -/

theorem take_goIndexRune_eq_takeWhile : ∀ p : GoStr,
    (if goIndexRune p '?' ≠ -1 then p.take (goIndexRune p '?').toNat else p) =
      p.takeWhile (fun c => c ≠ '?')
  | [] => by simp [goIndexRune]
  | c :: rest => by
    have ih := take_goIndexRune_eq_takeWhile rest
    by_cases hc : c = '?'
    · subst hc
      simp [goIndexRune, List.findIdx?_cons, List.takeWhile_cons]
    · cases hrest : rest.findIdx? (fun x => decide (x = '?')) with
      | none =>
        have h1 : goIndexRune (c :: rest) '?' = -1 := by
          simp [goIndexRune, List.findIdx?_cons, hc, hrest]
        have h2 : goIndexRune rest '?' = -1 := by
          simp [goIndexRune, hrest]
        rw [h2] at ih
        rw [if_neg (show ¬(-1 : Int) ≠ -1 by decide)] at ih
        rw [h1, if_neg (show ¬(-1 : Int) ≠ -1 by decide)]
        rw [List.takeWhile_cons, if_pos (show decide (c ≠ '?') = true by simp [hc])]
        exact congrArg (List.cons c) ih
      | some i =>
        have h1 : goIndexRune (c :: rest) '?' = ((i + 1 : Nat) : Int) := by
          simp [goIndexRune, List.findIdx?_cons, hc, hrest]
        have h2 : goIndexRune rest '?' = ((i : Nat) : Int) := by
          simp [goIndexRune, hrest]
        rw [h2] at ih
        rw [if_pos (show ((i : Nat) : Int) ≠ -1 by omega),
          show (((i : Nat) : Int)).toNat = i from by omega] at ih
        rw [h1, if_pos (show ((i + 1 : Nat) : Int) ≠ -1 by omega),
          show (((i + 1 : Nat) : Int)).toNat = i + 1 from by omega]
        rw [List.take_succ_cons]
        rw [List.takeWhile_cons, if_pos (show decide (c ≠ '?') = true by simp [hc])]
        exact congrArg (List.cons c) ih

/-- C8: the paginator resolves a Link-header path by joining it onto the
directory of the currently-loaded path with its query string stripped — for
every current path and every relative link, `buildPath` agrees with the
spec's resolution rule. -/
theorem C8_buildPath (origPath link : GoStr) :
    buildPath origPath link = linkResolveSpec origPath link := by
  simp only [buildPath, linkResolveSpec]
  rw [take_goIndexRune_eq_takeWhile]

/-! ### Claim C9: Shuffle is partial on singletons -/

theorem shuffleLoop_isSome (rng : Nat → Nat) (len : Nat) (h : 2 ≤ len) :
    ∀ (fuel i : Nat) (l : List GoStr), (shuffleLoop rng len fuel i l).isSome = true
  | 0, _, _ => rfl
  | fuel + 1, i, l => by
    have hn : ¬((len : Int) - 1 ≤ 0) := by omega
    simp only [shuffleLoop, randIntn, if_neg hn]
    exact shuffleLoop_isSome rng len h fuel (i + 1) _

/-- C9: `Shuffle` panics exactly on singleton lists: on a list of length 1
the drawn bound `len(l)-1` is 0 and `rand.Intn` panics, while on any list of
length 0 or at least 2 the shuffle completes normally. -/
theorem C9_shuffle (rng : Nat → Nat) (l : List GoStr) :
    (l.length = 1 → Shuffle rng l = none) ∧
    (l.length ≠ 1 → (Shuffle rng l).isSome = true) := by
  constructor
  · intro h1
    rcases l with - | ⟨a, l⟩
    · simp at h1
    rcases l with - | ⟨b, l⟩
    · rfl
    · simp at h1
  · intro h2
    rcases l with - | ⟨a, l⟩
    · rfl
    · rcases l with - | ⟨b, l⟩
      · simp at h2
      · exact shuffleLoop_isSome rng _ (by simp) _ _ _

/-- Witness for C9: shuffling a singleton panics, shuffling a pair returns
normally. -/
theorem C9_witness :
    Shuffle (fun _ => 0) [gs "a"] = none ∧
    (Shuffle (fun _ => 0) [gs "a", gs "b"]).isSome = true := by
  obtain ⟨h1, -⟩ := C9_shuffle (fun _ => 0) [gs "a"]
  obtain ⟨-, h2⟩ := C9_shuffle (fun _ => 0) [gs "a", gs "b"]
  exact ⟨h1 rfl, h2 (by decide)⟩
